import Mathlib

/-!
Verification of the AOXCDAO "Absolute Notary" scan/cursor/seal pipeline.

The development shallowly embeds the two Python sources of the repository:

* `src/INFRASTRUCTURE/40_SENTINEL/infra40_SentinelGuard.py` (v8.4.0):
  `get_supreme_provider`, `seal_artifact`, `run_notary_cycle`;
* `src/sentinel-ops/sentinel.py` (v8.3.5):
  `setup_ghost_rpc`, `run_supreme_notary`.

Impure inputs of the Python code (the RPC connection, the chain head, the
current time, file contents) are passed explicitly as parameters; the
`eth_getLogs` RPC call is an oracle function that may fail, modelling a raised
exception.  File writes, network requests and subprocess invocations are
recorded in an explicit trace of operations, so that ordering properties of
the loop (cursor persistence versus sealing) can be stated and proved.
-/

/-- JSON values, the payload language of the notary: each event in the vault is
`json.loads(Web3.to_json(log))`, a JSON object; numbers in these payloads are
integers. -/
inductive JVal where
| jnull : JVal
| jbool : Bool → JVal
| jnum : Int → JVal
| jstr : String → JVal
| jarr : List JVal → JVal
| jobj : List (String × JVal) → JVal

/-- One raw log entry, preserved verbatim: a JSON object given by its
key/value entries (a Python dict has no duplicate keys, which theorems track
as a `Nodup` hypothesis on the key list). -/
abbrev Event := List (String × JVal)

/-- Code-point lexicographic comparison of character lists: CPython's string
`<=`, the comparison `sorted` uses on the keys in
`json.dumps(..., sort_keys=True)`. -/
def charsLe : List Char → List Char → Bool
| [], _ => true
| _ :: _, [] => false
| a :: as, b :: bs => if a = b then charsLe as bs else decide (a < b)

/-- Order on object entries by key, mirroring CPython's string comparison used
by `json.dumps(..., sort_keys=True)`. -/
def keyLE (a b : String × JVal) : Prop := charsLe a.1.data b.1.data = true

instance : DecidableRel keyLE := fun a b =>
  inferInstanceAs (Decidable (charsLe a.1.data b.1.data = true))

/-- Totality of the code-point order. -/
theorem charsLe_total (a b : List Char) : charsLe a b = true ∨ charsLe b a = true := by
  induction a generalizing b with
  | nil => exact Or.inl rfl
  | cons x xs ih =>
    cases b with
    | nil => exact Or.inr rfl
    | cons y ys =>
      by_cases hxy : x = y
      · subst hxy
        simpa [charsLe] using ih ys
      · rcases lt_or_gt_of_ne hxy with h | h
        · exact Or.inl (by simp [charsLe, hxy, h])
        · exact Or.inr (by simp [charsLe, Ne.symm hxy, h])

/-- Transitivity of the code-point order. -/
theorem charsLe_trans {a b c : List Char} (h1 : charsLe a b = true)
    (h2 : charsLe b c = true) : charsLe a c = true := by
  induction a generalizing b c with
  | nil => rfl
  | cons x xs ih =>
    cases b with
    | nil => simp [charsLe] at h1
    | cons y ys =>
      cases c with
      | nil => simp [charsLe] at h2
      | cons z zs =>
        by_cases hxy : x = y
        · subst hxy
          by_cases hyz : x = z
          · subst hyz
            simp only [charsLe, if_pos rfl] at h1 h2 ⊢
            exact ih h1 h2
          · simp only [charsLe, if_pos rfl] at h1
            simp only [charsLe, if_neg hyz] at h2 ⊢
            exact h2
        · by_cases hyz : y = z
          · subst hyz
            simp only [charsLe, if_neg hxy] at h1 ⊢
            exact h1
          · simp only [charsLe, if_neg hxy, decide_eq_true_eq] at h1
            simp only [charsLe, if_neg hyz, decide_eq_true_eq] at h2
            have hxz : x < z := lt_trans h1 h2
            have hne : x ≠ z := ne_of_lt hxz
            simp [charsLe, hne, hxz]

/-- Antisymmetry of the code-point order. -/
theorem charsLe_antisymm {a b : List Char} (h1 : charsLe a b = true)
    (h2 : charsLe b a = true) : a = b := by
  induction a generalizing b with
  | nil =>
    cases b with
    | nil => rfl
    | cons y ys => simp [charsLe] at h2
  | cons x xs ih =>
    cases b with
    | nil => simp [charsLe] at h1
    | cons y ys =>
      by_cases hxy : x = y
      · subst hxy
        simp only [charsLe, if_pos rfl] at h1 h2
        exact congrArg (x :: ·) (ih h1 h2)
      · simp only [charsLe, if_neg hxy, decide_eq_true_eq] at h1
        simp only [charsLe, if_neg (Ne.symm hxy), decide_eq_true_eq] at h2
        exact absurd h2 (not_lt_of_gt h1)

instance : IsTotal (String × JVal) keyLE := ⟨fun a b => charsLe_total a.1.data b.1.data⟩

instance : IsTrans (String × JVal) keyLE := ⟨fun _ _ _ h1 h2 => charsLe_trans h1 h2⟩

/-- Key-sorting of an object's entries, as performed by
`json.dumps(..., sort_keys=True)` when emitting an object. -/
def sortKVs (kvs : List (String × JVal)) : List (String × JVal) :=
  List.insertionSort keyLE kvs

/-- Hex digit characters as Python prints them (lowercase). -/
def hexChar (n : Nat) : Char := if n < 10 then Char.ofNat (48 + n) else Char.ofNat (87 + n)

/-- Escape sequence `\uXXXX` emitted by `json.dumps` for non-ASCII code units. -/
def uEsc (n : Nat) : List Char :=
  ['\\', 'u', hexChar ((n / 4096) % 16), hexChar ((n / 256) % 16),
   hexChar ((n / 16) % 16), hexChar (n % 16)]

/-- Escaping of one character exactly as CPython's `json.dumps` with the
default `ensure_ascii=True`: quote and backslash escaped, printable ASCII kept,
short escapes for the usual control characters, `\uXXXX` otherwise (surrogate
pairs for astral code points). -/
def escChar (c : Char) : List Char :=
  let n := c.toNat
  if c = '"' then ['\\', '"']
  else if c = '\\' then ['\\', '\\']
  else if 32 ≤ n ∧ n ≤ 126 then [c]
  else if n = 8 then ['\\', 'b']
  else if n = 9 then ['\\', 't']
  else if n = 10 then ['\\', 'n']
  else if n = 12 then ['\\', 'f']
  else if n = 13 then ['\\', 'r']
  else if n < 65536 then uEsc n
  else uEsc (55296 + (n - 65536) / 1024) ++ uEsc (56320 + (n - 65536) % 1024)

/-- JSON string serialization of `json.dumps`: quoted and escaped. -/
def pyQuote (s : String) : String :=
  ⟨'"' :: s.data.foldr (fun c acc => escChar c ++ acc) ['"']⟩

mutual

/-- Canonical form of a JSON value: every object's entries key-sorted,
bottom-up.  Serializing the canonical form without further sorting is exactly
what `json.dumps(..., sort_keys=True)` emits, since the sort compares keys
only. -/
def canonJ : JVal → JVal
| .jnull => .jnull
| .jbool b => .jbool b
| .jnum n => .jnum n
| .jstr s => .jstr s
| .jarr xs => .jarr (canonArr xs)
| .jobj kvs => .jobj (sortKVs (canonObj kvs))

/-- Canonical forms of the elements of a JSON array. -/
def canonArr : List JVal → List JVal
| [] => []
| x :: xs => canonJ x :: canonArr xs

/-- Canonical forms of the values of a JSON object's entries. -/
def canonObj : List (String × JVal) → List (String × JVal)
| [] => []
| (k, v) :: kvs => (k, canonJ v) :: canonObj kvs

end

mutual

/-- Plain serialization of a JSON value with CPython's default separators
`", "` and `": "`; applied after `canonJ` this is
`json.dumps(v, sort_keys=True)`. -/
def serJ : JVal → String
| .jnull => "null"
| .jbool b => cond b "true" "false"
| .jnum n => toString n
| .jstr s => pyQuote s
| .jarr xs => "[" ++ serArr xs ++ "]"
| .jobj kvs => "\x7b" ++ serObj kvs ++ "\x7d"

/-- Comma-separated serialization of a JSON array's elements. -/
def serArr : List JVal → String
| [] => ""
| [x] => serJ x
| x :: y :: xs => serJ x ++ ", " ++ serArr (y :: xs)

/-- Comma-separated serialization of a JSON object's entries. -/
def serObj : List (String × JVal) → String
| [] => ""
| [(k, v)] => pyQuote k ++ ": " ++ serJ v
| (k, v) :: q :: kvs => pyQuote k ++ ": " ++ serJ v ++ ", " ++ serObj (q :: kvs)

end

/-- View of a batch (vault) as the JSON value that is serialized and hashed:
a JSON array of the event objects, in vault order. -/
def toJson (payload : List Event) : JVal := JVal.jarr (payload.map JVal.jobj)

/-- Canonical serialization `json.dumps(j, sort_keys=True)`. -/
def dumpsSorted (j : JVal) : String := serJ (canonJ j)

/-- UTF-8 bytes of one character, as produced by Python's `str.encode()`. -/
def utf8Bytes (c : Char) : List Nat :=
  let n := c.toNat
  if n < 128 then [n]
  else if n < 2048 then [192 + n / 64, 128 + n % 64]
  else if n < 65536 then [224 + n / 4096, 128 + (n / 64) % 64, 128 + n % 64]
  else [240 + n / 262144, 128 + (n / 4096) % 64, 128 + (n / 64) % 64, 128 + n % 64]

/-- Encoding of a string to its UTF-8 byte sequence (`str.encode()`). -/
def strBytes (s : String) : List Nat :=
  s.data.foldr (fun c acc => utf8Bytes c ++ acc) []

/-- Truncation to a 32-bit word. -/
def w32 (n : Nat) : Nat := n % 4294967296

/-- Right rotation of a 32-bit word. -/
def rotr (x n : Nat) : Nat := w32 ((x >>> n) ||| (x <<< (32 - n)))

/-- Round constants of SHA-256 (FIPS 180-4). -/
def sha256K : List Nat :=
  [1116352408, 1899447441, 3049323471, 3921009573, 961987163, 1508970993,
   2453635748, 2870763221, 3624381080, 310598401, 607225278, 1426881987,
   1925078388, 2162078206, 2614888103, 3248222580, 3835390401, 4022224774,
   264347078, 604807628, 770255983, 1249150122, 1555081692, 1996064986,
   2554220882, 2821834349, 2952996808, 3210313671, 3336571891, 3584528711,
   113926993, 338241895, 666307205, 773529912, 1294757372, 1396182291,
   1695183700, 1986661051, 2177026350, 2456956037, 2730485921, 2820302411,
   3259730800, 3345764771, 3516065817, 3600352804, 4094571909, 275423344,
   430227734, 506948616, 659060556, 883997877, 958139571, 1322822218,
   1537002063, 1747873779, 1955562222, 2024104815, 2227730452, 2361852424,
   2428436474, 2756734187, 3204031479, 3329325298]

/-- Working state of SHA-256: eight 32-bit words. -/
structure Hash8 where
  a : Nat
  b : Nat
  c : Nat
  d : Nat
  e : Nat
  f : Nat
  g : Nat
  h : Nat
deriving DecidableEq

/-- Initial hash state of SHA-256. -/
def sha256Init : Hash8 :=
  ⟨1779033703, 3144134277, 1013904242, 2773480762,
   1359893119, 2600822924, 528734635, 1541459225⟩

/-- Message padding of SHA-256: append 0x80, zero bytes up to 56 mod 64, then
the bit length as eight big-endian bytes. -/
def sha256Pad (msg : List Nat) : List Nat :=
  let len := msg.length
  let lenBits := 8 * len
  msg ++ 128 :: List.replicate ((119 - len % 64) % 64) 0 ++
    [(lenBits >>> 56) % 256, (lenBits >>> 48) % 256, (lenBits >>> 40) % 256,
     (lenBits >>> 32) % 256, (lenBits >>> 24) % 256, (lenBits >>> 16) % 256,
     (lenBits >>> 8) % 256, lenBits % 256]

/-- Splitting a byte list into 64-byte blocks (fuel: the list length). -/
def toBlocks : Nat → List Nat → List (List Nat)
| 0, _ => []
| _, [] => []
| fuel + 1, bs => bs.take 64 :: toBlocks fuel (bs.drop 64)

/-- Grouping bytes into big-endian 32-bit words. -/
def bytesToWords : List Nat → List Nat
| b0 :: b1 :: b2 :: b3 :: rest =>
    (b0 * 16777216 + b1 * 65536 + b2 * 256 + b3) :: bytesToWords rest
| _ => []

/-- Lowercase sigma-0 of SHA-256. -/
def ssig0 (x : Nat) : Nat := (rotr x 7) ^^^ (rotr x 18) ^^^ (x >>> 3)

/-- Lowercase sigma-1 of SHA-256. -/
def ssig1 (x : Nat) : Nat := (rotr x 17) ^^^ (rotr x 19) ^^^ (x >>> 10)

/-- Uppercase sigma-0 of SHA-256. -/
def bsig0 (x : Nat) : Nat := (rotr x 2) ^^^ (rotr x 13) ^^^ (rotr x 22)

/-- Uppercase sigma-1 of SHA-256. -/
def bsig1 (x : Nat) : Nat := (rotr x 6) ^^^ (rotr x 11) ^^^ (rotr x 25)

/-- Message-schedule extension: starting from the 16 block words, n steps
append n further words. -/
def sha256Extend : Nat → List Nat → List Nat
| 0, ws => ws
| n + 1, ws =>
  let prev := sha256Extend n ws
  prev ++ [w32 (ssig1 (prev.getD (n + 14) 0) + prev.getD (n + 9) 0 +
                ssig0 (prev.getD (n + 1) 0) + prev.getD n 0)]

/-- One compression round of SHA-256. -/
def sha256Round (s : Hash8) (wk : Nat × Nat) : Hash8 :=
  let t1 := w32 (s.h + bsig1 s.e + ((s.e &&& s.f) ^^^ ((s.e ^^^ 4294967295) &&& s.g)) + wk.2 + wk.1)
  let t2 := w32 (bsig0 s.a + ((s.a &&& s.b) ^^^ (s.a &&& s.c) ^^^ (s.b &&& s.c)))
  ⟨w32 (t1 + t2), s.a, s.b, s.c, w32 (s.d + t1), s.e, s.f, s.g⟩

/-- Compression of one 64-byte block into the running state. -/
def sha256Block (s : Hash8) (block : List Nat) : Hash8 :=
  let ws := sha256Extend 48 (bytesToWords block)
  let t := (ws.zip sha256K).foldl sha256Round s
  ⟨w32 (s.a + t.a), w32 (s.b + t.b), w32 (s.c + t.c), w32 (s.d + t.d),
   w32 (s.e + t.e), w32 (s.f + t.f), w32 (s.g + t.g), w32 (s.h + t.h)⟩

/-- Big-endian bytes of one 32-bit word. -/
def wordBytes (w : Nat) : List Nat :=
  [(w >>> 24) % 256, (w >>> 16) % 256, (w >>> 8) % 256, w % 256]

/-- SHA-256 digest (32 bytes) of a byte list: `hashlib.sha256(m).digest()`. -/
def sha256 (msg : List Nat) : List Nat :=
  let padded := sha256Pad msg
  let final := (toBlocks padded.length padded).foldl sha256Block sha256Init
  wordBytes final.a ++ wordBytes final.b ++ wordBytes final.c ++ wordBytes final.d ++
    wordBytes final.e ++ wordBytes final.f ++ wordBytes final.g ++ wordBytes final.h

/-- Lowercase hex rendering of a byte list: hashlib's `hexdigest()`. -/
def hexdigest (bs : List Nat) : String :=
  ⟨bs.foldr (fun b acc => hexChar (b / 16) :: hexChar (b % 16) :: acc) []⟩

/-- Python's `str.upper()` on the ASCII strings this system produces. -/
def pyUpper (s : String) : String := ⟨s.data.map Char.toUpper⟩

set_option maxRecDepth 100000 in
/-- Known-answer check of the SHA-256 embedding: the FIPS 180-4 vector for
"abc" (bytes 97, 98, 99). -/
theorem sha256_known_vector :
    hexdigest (sha256 [97, 98, 99]) =
      "ba7816bf8f01cfea414140de5dae2223b00361a396177a9cb410ff61f20015ad" := by
  decide

set_option maxRecDepth 100000 in
/-- Known-answer check of the canonical-serialization embedding against
CPython: the value of
`json.dumps({"b": 1, "a": ["x", True, None], "c": {"z": -2, "y": "q\n"}}, sort_keys=True)`. -/
theorem dumps_known_vector :
    dumpsSorted (JVal.jobj [("b", JVal.jnum 1),
        ("a", JVal.jarr [JVal.jstr "x", JVal.jbool true, JVal.jnull]),
        ("c", JVal.jobj [("z", JVal.jnum (-2)), ("y", JVal.jstr "q\n")])]) =
      "\x7b\"a\": [\"x\", true, null], \"b\": 1, \"c\": \x7b\"y\": \"q\\n\", \"z\": -2\x7d\x7d" := by
  decide

set_option maxRecDepth 400000 in
/-- Known-answer check of the whole fingerprint pipeline against CPython:
serialize a one-event batch with sorted keys, UTF-8 encode, SHA-256, hex,
uppercase. -/
theorem fingerprint_known_vector :
    pyUpper (hexdigest (sha256 (strBytes (dumpsSorted (toJson
        [[("address", JVal.jstr "0xEB95"), ("logIndex", JVal.jnum 3),
          ("topics", JVal.jarr [JVal.jstr "0xdead", JVal.jstr "0xbeef"]),
          ("removed", JVal.jbool false)]]))))) =
      "9F11B8D818E0FECCB93F0C198AA7969D5CCF1797DCF063B9290E8736B4E303B5" := by
  decide

/-- Operations the notary performs against the outside world, in program
order: a `getLogs` RPC request for an inclusive block range, a synchronous
cursor-file write, the sealing of the batch, a certificate-file write into the
snapshot directory, an `ipfs add` subprocess invocation, and the printing of
the exception handler's error message. -/
inductive Op where
| getLogs : Nat → Nat → Op
| writeCursor : Nat → Op
| sealOp : Nat → Nat → Op
| writeFile : String → Op
| publish : String → Op
| reportBreach : String → Op

/-- Oracle for `w3.eth.get_logs({'fromBlock': a, 'toBlock': b, ...})`: a pure
function of the range that either returns the events of that range or raises
(models a thrown exception by an error value). -/
abbrev Fetch := Nat → Nat → Except String (List Event)

/-- Block ranges requested by the scan loop, as a pure function of the start
cursor and head (fuel-indexed for structural recursion; `scanRanges` supplies
sufficient fuel).  Mirrors `while pointer < current_head: limit =
min(pointer + STEP, current_head); ...; pointer = limit + 1`. -/
def scanRangesAux (step : Nat) : Nat → Nat → Nat → List (Nat × Nat)
| 0, _, _ => []
| fuel + 1, c, h =>
  if c < h then (c, min (c + step) h) :: scanRangesAux step fuel (min (c + step) h + 1) h
  else []

/-- Block ranges requested by a scan from cursor `c` to head `h`. -/
def scanRanges (step c h : Nat) : List (Nat × Nat) := scanRangesAux step (h - c) c h

/-- Outcome of the scan loop: the trace of operations it performed, the
in-memory vault it accumulated, the final content of the cursor file, and the
raised exception if a `getLogs` call failed. -/
structure ScanResult where
  trace : List Op
  vault : List Event
  finalPtr : Nat
  err : Option String

/-- The scan loop of `run_notary_cycle` / `run_supreme_notary` (the two
sources' loops are line-for-line the same algorithm, differing only in the
STEP constant): fetch `[pointer, limit]`, append the logs to the vault, then
set `pointer = limit + 1` and write it to the cursor file; on a raised
exception the loop stops after the failing request, its trace ending there.
Fuel-indexed for structural recursion; `scanLoop` supplies sufficient fuel. -/
def scanLoopAux (step : Nat) (fetch : Fetch) : Nat → Nat → Nat → ScanResult
| 0, c, _ => ⟨[], [], c, none⟩
| fuel + 1, c, h =>
  if c < h then
    let limit := min (c + step) h
    match fetch c limit with
    | .error e => ⟨[Op.getLogs c limit], [], c, some e⟩
    | .ok logs =>
      let r := scanLoopAux step fetch fuel (limit + 1) h
      ⟨Op.getLogs c limit :: Op.writeCursor (limit + 1) :: r.trace,
       logs ++ r.vault, r.finalPtr, r.err⟩
  else ⟨[], [], c, none⟩

/-- The scan loop run from cursor `c` against head `h`. -/
def scanLoop (step : Nat) (fetch : Fetch) (c h : Nat) : ScanResult :=
  scanLoopAux step fetch (h - c) c h

/-- Attestation block of the v8.4.0 certificate (`seal_artifact`). -/
structure Attestation where
  fingerprint : String
  notary_seal : String
  authority : String
  repository : String
  contact : String
  timestamp : String
  range : String

/-- Certificate of the v8.4.0 implementation: attestation plus verbatim
payload. -/
structure Certificate where
  attestation : Attestation
  payload : List Event

/-- Model of `seal_artifact(payload, start_block, end_block)` of
infra40_SentinelGuard.py: SHA-256 over `json.dumps(payload, sort_keys=True)`,
rendered as uppercase hex, wrapped in the attestation; the impure
`datetime.utcnow().isoformat()` read is the explicit `ts` parameter. -/
def seal_artifact (payload : List Event) (start_block end_block : Nat) (ts : String) :
    Certificate × String :=
  let manifest_str := dumpsSorted (toJson payload)
  let atomic_hash := pyUpper (hexdigest (sha256 (strBytes manifest_str)))
  (⟨⟨atomic_hash, "AOXC-V2-AKDENIZ-SUPREME-NOTARY", "AOXC DAO",
     "https://github.com/aoxc/AOXCDAO", "aoxcdao@gmail.com", ts,
     toString start_block ++ "-" ++ toString end_block⟩, payload⟩,
   atomic_hash)

/-- Outcome of one full v8.4.0 notary run: operation trace, certificate files
written to the snapshot directory (name and content), and the final content of
the cursor file. -/
structure RunResult where
  trace : List Op
  files : List (String × Certificate)
  cursorFile : Nat

/-- Model of `run_notary_cycle()` of infra40_SentinelGuard.py after the
cursor read: scan from `cursor` to `current_head`; if the loop raised, print
the integrity-breach message (the `except` branch, discarding the in-memory
vault); otherwise, if the vault is empty, return without sealing; otherwise
seal once over the whole run and write one certificate file named
`AOXC_CERT_<unixtime>_<first 8 fingerprint chars>.json`.  The impure clock
reads are the explicit `ts` (ISO timestamp) and `t` (unix time) parameters;
`step` abstracts the `BLOCK_STEP` constant. -/
def run_notary_cycle (step : Nat) (fetch : Fetch) (cursor current_head : Nat)
    (ts : String) (t : Nat) : RunResult :=
  let r := scanLoop step fetch cursor current_head
  match r.err with
  | some e =>
      ⟨r.trace ++ [Op.reportBreach ("[ERROR] System Integrity Breach: " ++ e)], [], r.finalPtr⟩
  | none =>
      if r.vault.isEmpty then ⟨r.trace, [], r.finalPtr⟩
      else
        let sealed := seal_artifact r.vault cursor current_head ts
        let file_name := "AOXC_CERT_" ++ toString t ++ "_" ++
          String.mk ((sealed.2).data.take 8) ++ ".json"
        ⟨r.trace ++ [Op.sealOp cursor current_head, Op.writeFile file_name],
         [(file_name, sealed.1)], r.finalPtr⟩

/-- Fingerprint computed inline by `run_supreme_notary` of sentinel.py
(v8.3.5, lines 99-100): `json.dumps(raw_vault, sort_keys=True)` hashed with
SHA-256 and rendered as uppercase hex. -/
def sentinel_fingerprint (raw_vault : List Event) : String :=
  let raw_manifest := dumpsSorted (toJson raw_vault)
  pyUpper (hexdigest (sha256 (strBytes raw_manifest)))

/-- Attestation block of the v8.3.5 bundle (sentinel.py), with its different
key names and unix timestamp. -/
structure Attestation835 where
  fingerprint_sha256 : String
  notary_seal : String
  author : String
  range : String
  unix_ts : Nat
  motto : String

/-- Bundle written by the v8.3.5 implementation. -/
structure Bundle835 where
  attestation : Attestation835
  raw_payload : List Event

/-- Outcome of one full v8.3.5 notary run. -/
structure RunResult835 where
  trace : List Op
  files : List (String × Bundle835)
  cursorFile : Nat

/-- Model of `run_supreme_notary()` of sentinel.py after the cursor read:
the same scan loop; on a raised exception the `[CRITICAL]` message is printed
and the vault discarded; an empty vault returns without sealing; otherwise the
bundle is sealed, written to `Supreme_Sealed_<unixtime>.json` and handed to
the `ipfs add` subprocess.  The impure `int(time.time())` reads are the
explicit `t` parameter. -/
def run_supreme_notary (step : Nat) (fetch : Fetch) (last_block current_block : Nat)
    (t : Nat) : RunResult835 :=
  let r := scanLoop step fetch last_block current_block
  match r.err with
  | some e => ⟨r.trace ++ [Op.reportBreach ("[CRITICAL] Error: " ++ e)], [], r.finalPtr⟩
  | none =>
      if r.vault.isEmpty then ⟨r.trace, [], r.finalPtr⟩
      else
        let atomic_hash := sentinel_fingerprint r.vault
        let final_bundle : Bundle835 :=
          ⟨⟨atomic_hash, "AOXC-V2-AKDENIZ-SUPREME-NOTARY", "https://x.com/AOXC_AKDENIZ",
            toString last_block ++ "-" ++ toString current_block, t,
            "In Code We Trust - AOXC Akdeniz"⟩, r.vault⟩
        let f_name := "Supreme_Sealed_" ++ toString t ++ ".json"
        ⟨r.trace ++ [Op.sealOp last_block current_block, Op.writeFile f_name, Op.publish f_name],
         [(f_name, final_bundle)], r.finalPtr⟩

/-- The `BLOCK_STEP` constant of infra40_SentinelGuard.py (v8.4.0). -/
def BLOCK_STEP_840 : Nat := 70

/-- The `BLOCK_STEP` constant of sentinel.py (v8.3.5). -/
def BLOCK_STEP_835 : Nat := 85

/-- The `GENESIS_BLOCK` constant of both sources. -/
def GENESIS_BLOCK : Nat := 52084000

/-- Model of `get_supreme_provider()` of infra40_SentinelGuard.py (and of the
structurally identical `setup_ghost_rpc()` of sentinel.py): try each endpoint
of the ordered list once; `probe` models `Web3(...).is_connected()` returning
true, with a raised exception or a false return both continuing to the next
endpoint.  Returns the list of endpoints attempted, in order, and either the
first live endpoint or the fatal `sys.exit` message. -/
def get_supreme_provider (probe : String → Bool) : List String → List String × Except String String
| [] => ([], Except.error "\n[!] CRITICAL: All gateway nodes are unreachable for AOXC DAO.")
| url :: rest =>
  if probe url then ([url], Except.ok url)
  else
    let r := get_supreme_provider probe rest
    (url :: r.1, r.2)

/-- Ranges of the `getLogs` requests appearing in a trace, in order. -/
def requested : List Op → List (Nat × Nat)
| [] => []
| Op.getLogs a b :: tr => (a, b) :: requested tr
| Op.writeCursor _ :: tr => requested tr
| Op.sealOp _ _ :: tr => requested tr
| Op.writeFile _ :: tr => requested tr
| Op.publish _ :: tr => requested tr
| Op.reportBreach _ :: tr => requested tr

/-- Values of the cursor-file writes appearing in a trace, in order. -/
def writeValues : List Op → List Nat
| [] => []
| Op.writeCursor v :: tr => v :: writeValues tr
| Op.getLogs _ _ :: tr => writeValues tr
| Op.sealOp _ _ :: tr => writeValues tr
| Op.writeFile _ :: tr => writeValues tr
| Op.publish _ :: tr => writeValues tr
| Op.reportBreach _ :: tr => writeValues tr

/-- Test for the two operations the scan loop itself performs. -/
def isScanOp : Op → Bool
| Op.getLogs _ _ => true
| Op.writeCursor _ => true
| Op.sealOp _ _ => false
| Op.writeFile _ => false
| Op.publish _ => false
| Op.reportBreach _ => false

/-- Trace of a fully successful scan over the given ranges: each range's
`getLogs` request immediately followed by its cursor write. -/
def interleave : List (Nat × Nat) → List Op
| [] => []
| p :: rest => Op.getLogs p.1 p.2 :: Op.writeCursor (p.2 + 1) :: interleave rest

/-- The longest prefix of the given ranges on which the fetch oracle
succeeds: the ranges the loop completes. -/
def completedRanges (fetch : Fetch) : List (Nat × Nat) → List (Nat × Nat)
| [] => []
| p :: rest =>
  match fetch p.1 p.2 with
  | .ok _ => p :: completedRanges fetch rest
  | .error _ => []

/-- The first range (with its message) on which the fetch oracle fails, if
any range before it succeeds. -/
def firstFailure (fetch : Fetch) : List (Nat × Nat) → Option ((Nat × Nat) × String)
| [] => none
| p :: rest =>
  match fetch p.1 p.2 with
  | .ok _ => firstFailure fetch rest
  | .error e => some (p, e)

/-- Trailing trace of a scan: the failing request, if any. -/
def failTail (fetch : Fetch) (rs : List (Nat × Nat)) : List Op :=
  match firstFailure fetch rs with
  | none => []
  | some pe => [Op.getLogs pe.1.1 pe.1.2]

/-- Events accumulated by the loop: the concatenation of the logs of the
completed ranges, in range order. -/
def vaultOf (fetch : Fetch) : List (Nat × Nat) → List Event
| [] => []
| p :: rest =>
  match fetch p.1 p.2 with
  | .ok logs => logs ++ vaultOf fetch rest
  | .error _ => []

/-- Cursor-file content after the writes for the given completed ranges,
starting from content `c`. -/
def endPtr (c : Nat) (rs : List (Nat × Nat)) : Nat := rs.foldl (fun _ p => p.2 + 1) c

/-- Fuel does not matter for `scanRangesAux` once it is at least `h - c`. -/
theorem scanRangesAux_congr (step h : Nat) :
    ∀ f1 f2 c, h - c ≤ f1 → h - c ≤ f2 →
      scanRangesAux step f1 c h = scanRangesAux step f2 c h := by
  intro f1
  induction f1 with
  | zero =>
    intro f2 c h1 h2
    have hch : ¬ c < h := by omega
    cases f2 with
    | zero => rfl
    | succ f2 => simp [scanRangesAux, hch]
  | succ f1 ih =>
    intro f2 c h1 h2
    cases f2 with
    | zero =>
      have hch : ¬ c < h := by omega
      simp [scanRangesAux, hch]
    | succ f2 =>
      by_cases hch : c < h
      · have hmin : c ≤ min (c + step) h := le_min (Nat.le_add_right _ _) (le_of_lt hch)
        simp only [scanRangesAux, if_pos hch]
        rw [ih f2 (min (c + step) h + 1) (by omega) (by omega)]
      · simp [scanRangesAux, hch]

/-- Unfolding of `scanRanges` when there is nothing to scan. -/
theorem scanRanges_eq_nil {step c h : Nat} (hch : ¬ c < h) : scanRanges step c h = [] := by
  unfold scanRanges
  have h0 : h - c = 0 := by omega
  rw [h0]
  rfl

/-- Unfolding of `scanRanges` when the loop takes a step. -/
theorem scanRanges_eq_cons {step c h : Nat} (hch : c < h) :
    scanRanges step c h =
      (c, min (c + step) h) :: scanRanges step (min (c + step) h + 1) h := by
  have hmin : c ≤ min (c + step) h := le_min (Nat.le_add_right _ _) (le_of_lt hch)
  obtain ⟨f, hf⟩ : ∃ f, h - c = f + 1 := ⟨h - c - 1, by omega⟩
  unfold scanRanges
  rw [hf]
  simp only [scanRangesAux, if_pos hch]
  rw [scanRangesAux_congr step h f (h - (min (c + step) h + 1)) _ (by omega) (le_refl _)]

/-- Fuel does not matter for `scanLoopAux` once it is at least `h - c`. -/
theorem scanLoopAux_congr (step : Nat) (fetch : Fetch) (h : Nat) :
    ∀ f1 f2 c, h - c ≤ f1 → h - c ≤ f2 →
      scanLoopAux step fetch f1 c h = scanLoopAux step fetch f2 c h := by
  intro f1
  induction f1 with
  | zero =>
    intro f2 c h1 h2
    have hch : ¬ c < h := by omega
    cases f2 with
    | zero => rfl
    | succ f2 => simp [scanLoopAux, hch]
  | succ f1 ih =>
    intro f2 c h1 h2
    cases f2 with
    | zero =>
      have hch : ¬ c < h := by omega
      simp [scanLoopAux, hch]
    | succ f2 =>
      by_cases hch : c < h
      · have hmin : c ≤ min (c + step) h := le_min (Nat.le_add_right _ _) (le_of_lt hch)
        simp only [scanLoopAux, if_pos hch]
        cases hf : fetch c (min (c + step) h) with
        | error e => rfl
        | ok logs => rw [ih f2 (min (c + step) h + 1) (by omega) (by omega)]
      · simp [scanLoopAux, hch]

/-- The scan loop characterized in full: its trace is the interleaving of
requests and cursor writes over the completed ranges, followed by the failing
request if any; its vault is the concatenation of the completed ranges' logs;
the cursor file ends one past the last completed range; the error is the
message of the first failure. -/
theorem scanLoop_spec (step : Nat) (fetch : Fetch) (h : Nat) :
    ∀ c, scanLoop step fetch c h =
      ⟨interleave (completedRanges fetch (scanRanges step c h)) ++
          failTail fetch (scanRanges step c h),
        vaultOf fetch (scanRanges step c h),
        endPtr c (completedRanges fetch (scanRanges step c h)),
        Option.map (fun pe => pe.2) (firstFailure fetch (scanRanges step c h))⟩ := by
  suffices haux : ∀ fuel c, h - c ≤ fuel →
      scanLoopAux step fetch fuel c h =
        ⟨interleave (completedRanges fetch (scanRanges step c h)) ++
            failTail fetch (scanRanges step c h),
          vaultOf fetch (scanRanges step c h),
          endPtr c (completedRanges fetch (scanRanges step c h)),
          Option.map (fun pe => pe.2) (firstFailure fetch (scanRanges step c h))⟩ by
    intro c
    exact haux (h - c) c (le_refl _)
  intro fuel
  induction fuel with
  | zero =>
    intro c h1
    have hch : ¬ c < h := by omega
    rw [scanRanges_eq_nil hch]
    simp [scanLoopAux, interleave, completedRanges, failTail, firstFailure, vaultOf, endPtr]
  | succ fuel ih =>
    intro c h1
    by_cases hch : c < h
    · have hmin : c ≤ min (c + step) h := le_min (Nat.le_add_right _ _) (le_of_lt hch)
      rw [scanRanges_eq_cons hch]
      simp only [scanLoopAux, if_pos hch]
      cases hf : fetch c (min (c + step) h) with
      | error e =>
        simp [completedRanges, hf, firstFailure, failTail, interleave, vaultOf, endPtr]
      | ok logs =>
        rw [ih (min (c + step) h + 1) (by omega)]
        simp [completedRanges, hf, firstFailure, failTail, interleave, vaultOf, endPtr]
    · rw [scanRanges_eq_nil hch]
      simp [scanLoopAux, hch, interleave, completedRanges, failTail, firstFailure, vaultOf, endPtr]

/-- Bounds of every requested range: it starts at or after the cursor, is
well-ordered, ends at or before the head, and is at most `step` wide. -/
theorem scanRangesAux_mem (step h : Nat) :
    ∀ fuel c p, p ∈ scanRangesAux step fuel c h →
      c ≤ p.1 ∧ p.1 ≤ p.2 ∧ p.2 ≤ h ∧ p.2 - p.1 ≤ step := by
  intro fuel
  induction fuel with
  | zero => intro c p hp; simp [scanRangesAux] at hp
  | succ fuel ih =>
    intro c p hp
    by_cases hch : c < h
    · simp only [scanRangesAux, if_pos hch, List.mem_cons] at hp
      have hmin : c ≤ min (c + step) h := le_min (Nat.le_add_right _ _) (le_of_lt hch)
      have hminh : min (c + step) h ≤ h := min_le_right _ _
      have hmins : min (c + step) h ≤ c + step := min_le_left _ _
      rcases hp with rfl | hp
      · exact ⟨le_refl c, hmin, hminh, by omega⟩
      · have := ih (min (c + step) h + 1) p hp
        exact ⟨by omega, this.2⟩
    · simp [scanRangesAux, hch] at hp

/-- Bounds of every range of `scanRanges`. -/
theorem scanRanges_mem {step c h : Nat} {p : Nat × Nat} (hp : p ∈ scanRanges step c h) :
    c ≤ p.1 ∧ p.1 ≤ p.2 ∧ p.2 ≤ h ∧ p.2 - p.1 ≤ step :=
  scanRangesAux_mem step h (h - c) c p hp

/-- The head of a nonempty range list starts at the cursor. -/
theorem scanRangesAux_head (step h : Nat) :
    ∀ fuel c q, (scanRangesAux step fuel c h).head? = some q → q.1 = c := by
  intro fuel c q
  cases fuel with
  | zero => intro hq; simp [scanRangesAux] at hq
  | succ fuel =>
    by_cases hch : c < h
    · simp only [scanRangesAux, if_pos hch, List.head?_cons, Option.some.injEq]
      intro hq
      rw [← hq]
    · simp [scanRangesAux, hch]

/-- Consecutive requested ranges are adjacent: each starts one past the
previous range's end. -/
theorem scanRangesAux_chain (step h : Nat) :
    ∀ fuel c, List.Chain' (fun p q : Nat × Nat => q.1 = p.2 + 1) (scanRangesAux step fuel c h) := by
  intro fuel
  induction fuel with
  | zero => intro c; simp [scanRangesAux]
  | succ fuel ih =>
    intro c
    by_cases hch : c < h
    · simp only [scanRangesAux, if_pos hch]
      refine List.chain'_cons'.mpr ⟨?_, ih _⟩
      intro q hq
      exact scanRangesAux_head step h fuel (min (c + step) h + 1) q (Option.mem_def.mp hq)
    · simp [scanRangesAux, hch]

/-- Adjacency of the ranges of `scanRanges`. -/
theorem scanRanges_chain (step c h : Nat) :
    List.Chain' (fun p q : Nat × Nat => q.1 = p.2 + 1) (scanRanges step c h) :=
  scanRangesAux_chain step h (h - c) c

/-- Range ends are strictly increasing along the range list. -/
theorem scanRangesAux_snd_pairwise (step h : Nat) :
    ∀ fuel c, List.Pairwise (fun p q : Nat × Nat => p.2 < q.2) (scanRangesAux step fuel c h) := by
  intro fuel
  induction fuel with
  | zero => intro c; simp [scanRangesAux]
  | succ fuel ih =>
    intro c
    by_cases hch : c < h
    · simp only [scanRangesAux, if_pos hch]
      refine List.pairwise_cons.mpr ⟨?_, ih _⟩
      intro q hq
      have := scanRangesAux_mem step h fuel (min (c + step) h + 1) q hq
      omega
    · simp [scanRangesAux, hch]

/-- Strict end-monotonicity for `scanRanges`. -/
theorem scanRanges_snd_pairwise (step c h : Nat) :
    List.Pairwise (fun p q : Nat × Nat => p.2 < q.2) (scanRanges step c h) :=
  scanRangesAux_snd_pairwise step h (h - c) c

/-- The final pointer of a scan: one past the end of the last range; its end
is the head unless the distance is an exact multiple of `step + 1`, in which
case the head block itself is never requested. -/
theorem scanRanges_getLast {step c h : Nat} (hch : c < h) :
    ∃ p, (scanRanges step c h).getLast? = some p ∧
      endPtr c (scanRanges step c h) = p.2 + 1 ∧
      p.2 = (if (h - c) % (step + 1) = 0 then h - 1 else h) := by
  suffices haux : ∀ n c, h - c = n → c < h →
      ∃ p, (scanRanges step c h).getLast? = some p ∧
        endPtr c (scanRanges step c h) = p.2 + 1 ∧
        p.2 = (if (h - c) % (step + 1) = 0 then h - 1 else h) from
    haux (h - c) c rfl hch
  intro n
  induction n using Nat.strong_induction_on with
  | _ n ih =>
    intro c hn hch
    rw [scanRanges_eq_cons hch]
    have hmin : c ≤ min (c + step) h := le_min (Nat.le_add_right _ _) (le_of_lt hch)
    have hminh : min (c + step) h ≤ h := min_le_right _ _
    have hmins : min (c + step) h ≤ c + step := min_le_left _ _
    by_cases hnext : min (c + step) h + 1 < h
    · obtain ⟨p, hp1, hp2, hp3⟩ := ih (h - (min (c + step) h + 1)) (by omega)
        (min (c + step) h + 1) rfl hnext
      refine ⟨p, ?_, ?_, ?_⟩
      · cases hev : scanRanges step (min (c + step) h + 1) h with
        | nil => rw [hev] at hp1; simp at hp1
        | cons q qs =>
          rw [hev] at hp1
          rw [List.getLast?_cons_cons]
          exact hp1
      · simp only [endPtr, List.foldl_cons]
        simp only [endPtr] at hp2
        exact hp2
      · rw [hp3]
        have hm : min (c + step) h = c + step := by omega
        have harith : h - c = (h - (min (c + step) h + 1)) + (step + 1) := by omega
        rw [harith, Nat.add_mod_right]
    · -- the recursive tail is empty: this is the last range
      have hnil : scanRanges step (min (c + step) h + 1) h = [] :=
        scanRanges_eq_nil (by omega)
      refine ⟨(c, min (c + step) h), ?_, ?_, ?_⟩
      · rw [hnil]; rfl
      · rw [hnil]; rfl
      · by_cases hclip : c + step < h
        · -- limit = c + step and c + step + 1 = h: exact multiple, head missed
          have hm : min (c + step) h = c + step := by omega
          have hmod : (h - c) % (step + 1) = 0 := by
            have hh : h - c = step + 1 := by omega
            simp [hh]
          rw [if_pos hmod]
          omega
        · -- limit clipped to h: last range ends exactly at the head
          have hm : min (c + step) h = h := by omega
          have hmod : ¬ (h - c) % (step + 1) = 0 := by
            have h2 : 0 < h - c := by omega
            have h3 := Nat.mod_eq_of_lt (show h - c < step + 1 by omega)
            omega
          rw [if_neg hmod]
          omega

/-- Value of `endPtr` via the last completed range. -/
theorem endPtr_eq_getLast {p : Nat × Nat} :
    ∀ {rs : List (Nat × Nat)} (c : Nat), rs.getLast? = some p → endPtr c rs = p.2 + 1 := by
  intro rs
  induction rs with
  | nil => intro c hp; simp at hp
  | cons q rest ih =>
    intro c hp
    cases hrest : rest with
    | nil =>
      rw [hrest] at hp
      simp only [List.getLast?_singleton, Option.some.injEq] at hp
      rw [← hp]
      rfl
    | cons r rest2 =>
      rw [hrest] at hp ih
      rw [List.getLast?_cons_cons] at hp
      simp only [endPtr, List.foldl_cons]
      exact ih (q.2 + 1) hp

/-- The cursor file content never falls below the cursor the scan started
from. -/
theorem scanRangesAux_endPtr_ge (step h : Nat) :
    ∀ fuel c, c ≤ endPtr c (scanRangesAux step fuel c h) := by
  intro fuel
  induction fuel with
  | zero => intro c; exact le_refl c
  | succ fuel ih =>
    intro c
    by_cases hch : c < h
    · have hmin : c ≤ min (c + step) h := le_min (Nat.le_add_right _ _) (le_of_lt hch)
      simp only [scanRangesAux, if_pos hch, endPtr, List.foldl_cons]
      have := ih (min (c + step) h + 1)
      simp only [endPtr] at this
      omega
    · simp [scanRangesAux, hch, endPtr]

/-- Every block fetched by the scan lies strictly below the final persisted
cursor: once the loop finishes, the cursor is ahead of everything it read. -/
theorem scanRangesAux_snd_lt_endPtr (step h : Nat) :
    ∀ fuel c p, p ∈ scanRangesAux step fuel c h →
      p.2 < endPtr c (scanRangesAux step fuel c h) := by
  intro fuel
  induction fuel with
  | zero => intro c p hp; simp [scanRangesAux] at hp
  | succ fuel ih =>
    intro c p hp
    by_cases hch : c < h
    · simp only [scanRangesAux, if_pos hch, List.mem_cons] at hp
      simp only [scanRangesAux, if_pos hch, endPtr, List.foldl_cons]
      rcases hp with rfl | hp
      · have := scanRangesAux_endPtr_ge step h fuel (min (c + step) h + 1)
        simp only [endPtr] at this
        omega
      · have := ih (min (c + step) h + 1) p hp
        simpa [endPtr] using this
    · simp [scanRangesAux, hch] at hp

/-- Every range of `scanRanges` ends strictly below the final cursor. -/
theorem scanRanges_snd_lt_endPtr {step c h : Nat} {p : Nat × Nat}
    (hp : p ∈ scanRanges step c h) : p.2 < endPtr c (scanRanges step c h) :=
  scanRangesAux_snd_lt_endPtr step h (h - c) c p hp

/-- With at least one block to scan, the final cursor is strictly ahead of the
starting cursor. -/
theorem endPtr_gt_of_lt {step c h : Nat} (hch : c < h) :
    c < endPtr c (scanRanges step c h) := by
  obtain ⟨p, hp1, hp2, _⟩ := @scanRanges_getLast step _ _ hch
  have hmem : p ∈ scanRanges step c h := by
    obtain ⟨hne, heq⟩ := List.mem_getLast?_eq_getLast (Option.mem_def.mpr hp1)
    rw [heq]
    exact List.getLast_mem hne
  have := (scanRanges_mem hmem).1
  have := (scanRanges_mem hmem).2.1
  omega

/-- The completed ranges form an initial segment of the requested ranges. -/
theorem completedRanges_append (fetch : Fetch) :
    ∀ rs : List (Nat × Nat), ∃ suf, rs = completedRanges fetch rs ++ suf := by
  intro rs
  induction rs with
  | nil => exact ⟨[], rfl⟩
  | cons p rest ih =>
    cases hf : fetch p.1 p.2 with
    | ok logs =>
      obtain ⟨suf, hsuf⟩ := ih
      refine ⟨suf, ?_⟩
      simp only [completedRanges, hf, List.cons_append]
      rw [← hsuf]
    | error e =>
      refine ⟨p :: rest, ?_⟩
      simp [completedRanges, hf]

/-- Every completed range is one of the requested ranges. -/
theorem completedRanges_mem (fetch : Fetch) :
    ∀ rs : List (Nat × Nat), ∀ p ∈ completedRanges fetch rs, p ∈ rs := by
  intro rs
  induction rs with
  | nil => intro p hp; simp [completedRanges] at hp
  | cons q rest ih =>
    intro p hp
    cases hf : fetch q.1 q.2 with
    | ok logs =>
      simp only [completedRanges, hf, List.mem_cons] at hp
      rcases hp with rfl | hp
      · exact List.mem_cons_self _ _
      · exact List.mem_cons_of_mem _ (ih p hp)
    | error e =>
      simp [completedRanges, hf] at hp

/-- The failing range, if any, is one of the requested ranges. -/
theorem firstFailure_mem (fetch : Fetch) :
    ∀ rs : List (Nat × Nat), ∀ pe, firstFailure fetch rs = some pe → pe.1 ∈ rs := by
  intro rs
  induction rs with
  | nil => intro pe hpe; simp [firstFailure] at hpe
  | cons q rest ih =>
    intro pe hpe
    cases hf : fetch q.1 q.2 with
    | ok logs =>
      simp only [firstFailure, hf] at hpe
      exact List.mem_cons_of_mem _ (ih pe hpe)
    | error e =>
      simp only [firstFailure, hf, Option.some.injEq] at hpe
      rw [← hpe]
      exact List.mem_cons_self _ _

/-- When the oracle succeeds on every requested range, every range completes
and nothing fails. -/
theorem completedRanges_all_ok (fetch : Fetch) :
    ∀ rs : List (Nat × Nat), (∀ p ∈ rs, (fetch p.1 p.2).isOk = true) →
      completedRanges fetch rs = rs ∧ firstFailure fetch rs = none := by
  intro rs
  induction rs with
  | nil => intro _; exact ⟨rfl, rfl⟩
  | cons q rest ih =>
    intro hok
    have hq := hok q (List.mem_cons_self q rest)
    cases hf : fetch q.1 q.2 with
    | error e => rw [hf] at hq; simp [Except.isOk, Except.toBool] at hq
    | ok logs =>
      obtain ⟨h1, h2⟩ := ih (fun p hp => hok p (List.mem_cons_of_mem _ hp))
      constructor
      · simp only [completedRanges, hf]
        rw [h1]
      · simp only [firstFailure, hf]
        exact h2

/-- When the oracle returns an empty list on every requested range, the vault
stays empty. -/
theorem vaultOf_empty (fetch : Fetch) :
    ∀ rs : List (Nat × Nat), (∀ p ∈ rs, fetch p.1 p.2 = Except.ok []) →
      vaultOf fetch rs = [] := by
  intro rs
  induction rs with
  | nil => intro _; rfl
  | cons q rest ih =>
    intro hok
    have hq := hok q (List.mem_cons_self q rest)
    simp only [vaultOf, hq, List.nil_append]
    exact ih (fun p hp => hok p (List.mem_cons_of_mem _ hp))

/-- Failure at index k: exactly the first k ranges complete, the k-th
request fails with the raised message. -/
theorem completedRanges_fail_at (fetch : Fetch) (e : String) :
    ∀ (k : Nat) (rs : List (Nat × Nat)) (rk : Nat × Nat),
      (∀ p ∈ rs.take k, (fetch p.1 p.2).isOk = true) →
      rs[k]? = some rk →
      fetch rk.1 rk.2 = Except.error e →
      completedRanges fetch rs = rs.take k ∧ firstFailure fetch rs = some (rk, e) := by
  intro k
  induction k with
  | zero =>
    intro rs rk hdone hk hfail
    cases rs with
    | nil => simp at hk
    | cons r0 rest =>
      simp only [List.getElem?_cons_zero, Option.some.injEq] at hk
      subst hk
      constructor
      · simp [completedRanges, hfail]
      · simp [firstFailure, hfail]
  | succ k ih =>
    intro rs rk hdone hk hfail
    cases rs with
    | nil => simp at hk
    | cons r0 rest =>
      have h0 : (fetch r0.1 r0.2).isOk = true := by
        refine hdone r0 ?_
        rw [List.take_succ_cons]
        exact List.mem_cons_self _ _
      cases hf : fetch r0.1 r0.2 with
      | error e0 => rw [hf] at h0; simp [Except.isOk, Except.toBool] at h0
      | ok logs =>
        have hdone' : ∀ p ∈ rest.take k, (fetch p.1 p.2).isOk = true := by
          intro p hp
          refine hdone p ?_
          rw [List.take_succ_cons]
          exact List.mem_cons_of_mem _ hp
        obtain ⟨h1, h2⟩ := ih rest rk hdone' (by simpa using hk) hfail
        constructor
        · simp only [completedRanges, hf, List.take_succ_cons]
          rw [h1]
        · simp only [firstFailure, hf]
          exact h2

/-- The cursor value after the first k completed ranges is the lower bound of
range k, which is one past the upper bound of range k-1. -/
theorem endPtr_take_eq_fst {step h : Nat} :
    ∀ (k : Nat) (c : Nat) (rk : Nat × Nat), (scanRanges step c h)[k]? = some rk →
      endPtr c ((scanRanges step c h).take k) = rk.1 := by
  intro k
  induction k with
  | zero =>
    intro c rk hk
    by_cases hch : c < h
    · rw [scanRanges_eq_cons hch] at hk
      simp only [List.getElem?_cons_zero, Option.some.injEq] at hk
      rw [← hk]
      rfl
    · rw [scanRanges_eq_nil hch] at hk
      simp at hk
  | succ k ih =>
    intro c rk hk
    by_cases hch : c < h
    · rw [scanRanges_eq_cons hch] at hk ⊢
      simp only [List.getElem?_cons_succ] at hk
      rw [List.take_succ_cons]
      have := ih (min (c + step) h + 1) rk hk
      simpa [endPtr] using this
    · rw [scanRanges_eq_nil hch] at hk
      simp at hk

/-- Requests of a concatenated trace. -/
theorem requested_append : ∀ a b : List Op, requested (a ++ b) = requested a ++ requested b := by
  intro a b
  induction a with
  | nil => rfl
  | cons op tr ih => cases op <;> simp [requested, ih]

/-- Cursor writes of a concatenated trace. -/
theorem writeValues_append : ∀ a b : List Op, writeValues (a ++ b) = writeValues a ++ writeValues b := by
  intro a b
  induction a with
  | nil => rfl
  | cons op tr ih => cases op <;> simp [writeValues, ih]

/-- The requests of an interleaved scan trace are exactly its ranges. -/
theorem requested_interleave : ∀ rs : List (Nat × Nat), requested (interleave rs) = rs := by
  intro rs
  induction rs with
  | nil => rfl
  | cons p rest ih => simp [interleave, requested, ih]

/-- The cursor writes of an interleaved scan trace: one past each range end. -/
theorem writeValues_interleave :
    ∀ rs : List (Nat × Nat), writeValues (interleave rs) = rs.map (fun p => p.2 + 1) := by
  intro rs
  induction rs with
  | nil => rfl
  | cons p rest ih => simp [interleave, writeValues, ih]

/-- An interleaved scan trace contains only requests and cursor writes. -/
theorem interleave_scanOps :
    ∀ rs : List (Nat × Nat), ∀ op ∈ interleave rs, isScanOp op = true := by
  intro rs
  induction rs with
  | nil => intro op hop; simp [interleave] at hop
  | cons p rest ih =>
    intro op hop
    simp only [interleave, List.mem_cons] at hop
    rcases hop with rfl | rfl | hop
    · rfl
    · rfl
    · exact ih op hop

/-- The last operation of a nonempty interleaved scan trace is the cursor
write for its last range. -/
theorem interleave_getLast :
    ∀ (rs : List (Nat × Nat)) (p : Nat × Nat), rs.getLast? = some p →
      (interleave rs).getLast? = some (Op.writeCursor (p.2 + 1)) := by
  intro rs
  induction rs with
  | nil => intro p hp; simp at hp
  | cons q rest ih =>
    intro p hp
    cases hrest : rest with
    | nil =>
      rw [hrest] at hp
      simp only [List.getLast?_singleton, Option.some.injEq] at hp
      rw [← hp]
      rfl
    | cons r rest2 =>
      rw [hrest] at hp
      have hih := ih p (by rw [hrest]; exact hp)
      rw [hrest] at hih
      show (Op.getLogs q.1 q.2 :: Op.writeCursor (q.2 + 1) ::
        interleave (r :: rest2)).getLast? = _
      simp only [interleave] at hih ⊢
      rw [List.getLast?_cons_cons, List.getLast?_cons_cons]
      exact hih

/-- Strictly increasing cursor writes: the start cursor followed by one past
each completed range end. -/
theorem writes_pairwise (step : Nat) (fetch : Fetch) (c h : Nat) :
    List.Pairwise (· < ·)
      (c :: (completedRanges fetch (scanRanges step c h)).map (fun p => p.2 + 1)) := by
  obtain ⟨suf, hsuf⟩ := completedRanges_append fetch (scanRanges step c h)
  have hsub : List.Sublist (completedRanges fetch (scanRanges step c h)) (scanRanges step c h) := by
    conv_rhs => rw [hsuf]
    exact List.sublist_append_left _ _
  have hpw : List.Pairwise (fun p q : Nat × Nat => p.2 < q.2)
      (completedRanges fetch (scanRanges step c h)) :=
    (scanRanges_snd_pairwise step c h).sublist hsub
  refine List.pairwise_cons.mpr ⟨?_, ?_⟩
  · intro w hw
    obtain ⟨p, hp, rfl⟩ := List.mem_map.mp hw
    have hmem := completedRanges_mem fetch (scanRanges step c h) p hp
    have := scanRanges_mem hmem
    omega
  · exact List.pairwise_map.mpr (hpw.imp (fun hab => by omega))

/-- Strict key order on object entries, used to identify the sorted entry
list uniquely. -/
def keyLT (a b : String × JVal) : Prop := keyLE a b ∧ a.1 ≠ b.1

/-- Strings with equal character data are equal. -/
theorem strEq_of_data {s t : String} (h : s.data = t.data) : s = t := by
  cases s
  cases t
  cases h
  rfl

instance : IsAntisymm (String × JVal) keyLT :=
  ⟨fun _ _ h1 h2 => absurd (strEq_of_data (charsLe_antisymm h1.1 h2.1)) h1.2⟩

/-- A key-sorted entry list with no duplicate keys is strictly key-sorted. -/
theorem sorted_keyLT {l : List (String × JVal)} (hs : List.Sorted keyLE l)
    (hnd : (l.map Prod.fst).Nodup) : List.Sorted keyLT l := by
  have hp : l.Pairwise (fun a b : String × JVal => a.1 ≠ b.1) := List.pairwise_map.mp hnd
  exact hs.and hp

/-- Key-sorting is permutation-invariant on duplicate-free entry lists: the
canonical entry order of an object does not depend on the order its entries
arrived in. -/
theorem sortKVs_eq_of_perm {kvs kvs' : List (String × JVal)} (h : kvs.Perm kvs')
    (hnd : (kvs.map Prod.fst).Nodup) : sortKVs kvs = sortKVs kvs' := by
  have hperm : (sortKVs kvs).Perm (sortKVs kvs') :=
    (List.perm_insertionSort keyLE kvs).trans
      (h.trans (List.perm_insertionSort keyLE kvs').symm)
  have hs1 : List.Sorted keyLE (sortKVs kvs) := List.sorted_insertionSort keyLE kvs
  have hs2 : List.Sorted keyLE (sortKVs kvs') := List.sorted_insertionSort keyLE kvs'
  have hnd' : (kvs'.map Prod.fst).Nodup := ((h.map Prod.fst).nodup_iff).mp hnd
  have hnd1 : ((sortKVs kvs).map Prod.fst).Nodup :=
    (((List.perm_insertionSort keyLE kvs).map Prod.fst).nodup_iff).mpr hnd
  have hnd2 : ((sortKVs kvs').map Prod.fst).Nodup :=
    (((List.perm_insertionSort keyLE kvs').map Prod.fst).nodup_iff).mpr hnd'
  exact List.eq_of_perm_of_sorted hperm (sorted_keyLT hs1 hnd1) (sorted_keyLT hs2 hnd2)

/-- Canonicalization of an object's entries acts entrywise on the values. -/
theorem canonObj_map : ∀ kvs : List (String × JVal),
    canonObj kvs = kvs.map (fun kv => (kv.1, canonJ kv.2)) := by
  intro kvs
  induction kvs with
  | nil => rfl
  | cons kv rest ih =>
    obtain ⟨k, v⟩ := kv
    simp [canonObj, ih]

/-- Canonicalization of an object's entries keeps the keys. -/
theorem canonObj_keys (kvs : List (String × JVal)) :
    (canonObj kvs).map Prod.fst = kvs.map Prod.fst := by
  rw [canonObj_map, List.map_map]
  rfl

/-- Canonicalization of an object's entries respects permutation. -/
theorem canonObj_perm {kvs kvs' : List (String × JVal)} (h : kvs.Perm kvs') :
    (canonObj kvs).Perm (canonObj kvs') := by
  rw [canonObj_map, canonObj_map]
  exact h.map _

/-- Core of canonicalization-invariance: entrywise key-permuted batches have
identical canonical forms. -/
theorem canonArr_eventPerm : ∀ {B B' : List Event},
    List.Forall₂ (fun e e' : Event => e.Perm e') B B' →
    (∀ e ∈ B, (e.map Prod.fst).Nodup) →
    canonArr (B.map JVal.jobj) = canonArr (B'.map JVal.jobj) := by
  intro B B' hperm
  induction hperm with
  | nil => intro _; rfl
  | @cons e e' rest rest' he hrest ih =>
    intro hnd
    simp only [List.map_cons, canonArr, canonJ]
    have h1 : sortKVs (canonObj e) = sortKVs (canonObj e') := by
      refine sortKVs_eq_of_perm (canonObj_perm he) ?_
      rw [canonObj_keys]
      exact hnd e (List.mem_cons_self e rest)
    rw [h1, ih (fun x hx => hnd x (List.mem_cons_of_mem _ hx))]

/-- Length of the hex rendering of a byte list. -/
theorem hexdigest_data_length (bs : List Nat) : (hexdigest bs).data.length = 2 * bs.length := by
  show (bs.foldr (fun b acc => hexChar (b / 16) :: hexChar (b % 16) :: acc) []).length
    = 2 * bs.length
  induction bs with
  | nil => rfl
  | cons b rest ih =>
    simp only [List.foldr_cons, List.length_cons, ih]
    omega

/-- SHA-256 digests are 32 bytes. -/
theorem sha256_length (msg : List Nat) : (sha256 msg).length = 32 := by
  simp [sha256, wordBytes]

/-- The fingerprint string is 64 characters. -/
theorem atomicHash_data_length (x : List Nat) :
    (pyUpper (hexdigest (sha256 x))).data.length = 64 := by
  show ((hexdigest (sha256 x)).data.map Char.toUpper).length = 64
  rw [List.length_map, hexdigest_data_length, sha256_length]

/-- Boolean initial-segment test on character lists. -/
def leadsList : List Char → List Char → Bool
| [], _ => true
| _ :: _, [] => false
| a :: as, b :: bs => (a == b) && leadsList as bs

/-- A list is an initial segment of itself extended. -/
theorem leadsList_append (l r : List Char) : leadsList l (l ++ r) = true := by
  induction l with
  | nil => rfl
  | cons a as ih => simp [leadsList, ih]

/-- A taken part is an initial segment of the whole. -/
theorem leadsList_take (l : List Char) (n : Nat) : leadsList (l.take n) l = true := by
  induction l generalizing n with
  | nil => cases n <;> rfl
  | cons a as ih =>
    cases n with
    | zero => rfl
    | succ n => simp [leadsList, ih]

/-- Decision of the spec's certificate filename pattern
`<prefix>_<unixtime>_<fingerprint-prefix-or-full>.json`: some split of the name
yields an arbitrary prefix, then `_<t>_`, then a nonempty initial segment of
the fingerprint, then `.json`. -/
def matchesCertPattern (name : String) (t : Nat) (fp : String) : Bool :=
  (List.range (name.data.length + 1)).any fun i =>
    leadsList ("_" ++ toString t ++ "_").data (name.data.drop i) &&
      (decide (6 ≤ (name.data.drop (i + ("_" ++ toString t ++ "_").data.length)).length) &&
       (leadsList (".json".data)
          ((name.data.drop (i + ("_" ++ toString t ++ "_").data.length)).drop
            ((name.data.drop (i + ("_" ++ toString t ++ "_").data.length)).length - 5)) &&
        leadsList
          ((name.data.drop (i + ("_" ++ toString t ++ "_").data.length)).take
            ((name.data.drop (i + ("_" ++ toString t ++ "_").data.length)).length - 5))
          fp.data))

/-- Character data of a constructed string. -/
theorem data_mk (l : List Char) : (String.mk l).data = l := rfl

/-- The v8.4.0 certificate filename
`AOXC_CERT_<unixtime>_<first 8 fingerprint chars>.json` matches the spec's
filename pattern, for any creation time and any 64-character fingerprint. -/
theorem matchesCertPattern_infra40 (t : Nat) (fp : String) (hlen : fp.data.length = 64) :
    matchesCertPattern
      ("AOXC_CERT_" ++ toString t ++ "_" ++ String.mk (fp.data.take 8) ++ ".json") t fp
      = true := by
  have hsplit : ("AOXC_CERT_").data = "AOXC_CERT".data ++ "_".data := by decide
  have hdata : ("AOXC_CERT_" ++ toString t ++ "_" ++ String.mk (fp.data.take 8) ++ ".json").data
      = "AOXC_CERT".data ++
          (("_" ++ toString t ++ "_").data ++ (fp.data.take 8 ++ ".json".data)) := by
    simp only [String.data_append, data_mk, hsplit, List.append_assoc]
    rfl
  have hAlen : ("AOXC_CERT".data).length = 9 := by decide
  have hFlen : (fp.data.take 8).length = 8 := by
    rw [List.length_take, hlen]
    decide
  unfold matchesCertPattern
  rw [List.any_eq_true]
  refine ⟨9, ?_, ?_⟩
  · rw [List.mem_range, hdata, List.length_append]
    omega
  · simp only [Bool.and_eq_true, decide_eq_true_eq]
    have hdrop9 : ("AOXC_CERT_" ++ toString t ++ "_" ++ String.mk (fp.data.take 8)
        ++ ".json").data.drop 9
        = ("_" ++ toString t ++ "_").data ++ (fp.data.take 8 ++ ".json".data) := by
      rw [hdata]
      exact List.drop_left' hAlen
    have hdropMid : ("AOXC_CERT_" ++ toString t ++ "_" ++ String.mk (fp.data.take 8)
        ++ ".json").data.drop (9 + ("_" ++ toString t ++ "_").data.length)
        = fp.data.take 8 ++ ".json".data := by
      rw [hdata, ← List.append_assoc]
      refine List.drop_left' ?_
      rw [List.length_append, hAlen]
    have hrestLen : (fp.data.take 8 ++ ".json".data).length = 13 := by
      rw [List.length_append, hFlen]
      rfl
    refine ⟨?_, ?_, ?_, ?_⟩
    · rw [hdrop9]
      exact leadsList_append _ _
    · rw [hdropMid, hrestLen]
      omega
    · rw [hdropMid, hrestLen]
      have h8 : (13 : Nat) - 5 = 8 := rfl
      rw [h8, List.drop_left' hFlen]
      decide
    · rw [hdropMid, hrestLen]
      have h8 : (13 : Nat) - 5 = 8 := rfl
      rw [h8, List.take_left' hFlen]
      exact leadsList_take fp.data 8

/-- Oracle returning no events for any range. -/
def fetchNone : Fetch := fun _ _ => Except.ok []

/-- C10: for every batch, the v8.3.5 fingerprint computation inlined in
sentinel.py's `run_supreme_notary` (key-sorted JSON dump, SHA-256, uppercase
hex) and the v8.4.0 `seal_artifact` fingerprint of infra40_SentinelGuard.py
produce the same fingerprint string, for any range and timestamp the sealer is
invoked with, even though the surrounding attestation structures differ. -/
theorem C10_fingerprint_refinement (B : List Event) (s e : Nat) (ts : String) :
    sentinel_fingerprint B = (seal_artifact B s e ts).2 := rfl

/-- C3: sealing is fingerprint-deterministic across invocations (any two
timestamp reads), and permuting the internal key order of the events of the
batch, keeping the event sequence order, leaves the fingerprint unchanged —
because the fingerprint is the SHA-256 digest of the key-sorted canonical
serialization of the batch rendered as an uppercase hex string. -/
theorem C3_seal_canonical (B B' : List Event) (rs re : Nat) (ts ts' : String)
    (hperm : List.Forall₂ (fun e e' : Event => e.Perm e') B B')
    (hnd : ∀ e ∈ B, (e.map Prod.fst).Nodup) :
    (seal_artifact B rs re ts).2 = (seal_artifact B' rs re ts').2 ∧
    (seal_artifact B rs re ts).2 =
      pyUpper (hexdigest (sha256 (strBytes (dumpsSorted (toJson B))))) := by
  constructor
  · show pyUpper (hexdigest (sha256 (strBytes (dumpsSorted (toJson B))))) =
      pyUpper (hexdigest (sha256 (strBytes (dumpsSorted (toJson B')))))
    have hcan : canonJ (toJson B) = canonJ (toJson B') := by
      simp only [toJson, canonJ]
      rw [canonArr_eventPerm hperm hnd]
    rw [dumpsSorted, dumpsSorted, hcan]
  · rfl

/-- Two-entry event used by witnesses. -/
def evW : Event := [("address", JVal.jstr "0xeb95"), ("logIndex", JVal.jnum 7)]

/-- The same event with its two keys in swapped order. -/
def evWswap : Event := [("logIndex", JVal.jnum 7), ("address", JVal.jstr "0xeb95")]

/-- Witness for C3 at a concrete one-event batch and its key-swapped form. -/
theorem C3_witness :
    List.Forall₂ (fun e e' : Event => e.Perm e') [evW] [evWswap] ∧
    (∀ e ∈ [evW], (e.map Prod.fst).Nodup) ∧
    ((seal_artifact [evW] 5 9 "t1").2 = (seal_artifact [evWswap] 5 9 "t2").2 ∧
     (seal_artifact [evW] 5 9 "t1").2 =
       pyUpper (hexdigest (sha256 (strBytes (dumpsSorted (toJson [evW])))))) := by
  have hperm : List.Forall₂ (fun e e' : Event => e.Perm e') [evW] [evWswap] :=
    List.Forall₂.cons
      (List.Perm.swap ("logIndex", JVal.jnum 7) ("address", JVal.jstr "0xeb95") [])
      List.Forall₂.nil
  have hnd : ∀ e ∈ [evW], (e.map Prod.fst).Nodup := by
    intro e he
    simp only [List.mem_singleton] at he
    subst he
    decide
  exact ⟨hperm, hnd, C3_seal_canonical [evW] [evWswap] 5 9 "t1" "t2" hperm hnd⟩

/-- C2 counterexample: with starting cursor 0, head 5 and STEP 4, the run
requests exactly one range, [0, 4] — the last requested range does not end at
the head 5, so the requested ranges do not tile all of the claimed interval
up to H; block 5 is never requested in this run. -/
theorem C2_counterexample :
    requested (scanLoop 4 fetchNone 0 5).trace = [(0, 4)] ∧
    ¬ Option.map Prod.snd (requested (scanLoop 4 fetchNone 0 5).trace).getLast? = some 5 := by
  decide

/-- C2 (amended): over a fully successful run with C0 < H, the getLogs ranges
tile upward from C0 with no gap or overlap: the first range starts at C0, each
subsequent range starts one past the previous range's end, every range is at
most STEP wide — and the last range ends at H unless H - C0 is an exact
multiple of STEP + 1, in which case it ends at H - 1 and the head block is
left to the next run. -/
theorem C2_range_tiling (step : Nat) (fetch : Fetch) (c h : Nat)
    (hch : c < h)
    (hok : ∀ p ∈ scanRanges step c h, (fetch p.1 p.2).isOk = true) :
    requested (scanLoop step fetch c h).trace = scanRanges step c h ∧
    Option.map Prod.fst (requested (scanLoop step fetch c h).trace).head? = some c ∧
    List.Chain' (fun p q : Nat × Nat => q.1 = p.2 + 1)
      (requested (scanLoop step fetch c h).trace) ∧
    Option.map Prod.snd (requested (scanLoop step fetch c h).trace).getLast? =
      some (if (h - c) % (step + 1) = 0 then h - 1 else h) ∧
    (∀ p ∈ requested (scanLoop step fetch c h).trace, p.1 ≤ p.2 ∧ p.2 - p.1 ≤ step) := by
  obtain ⟨hcr, hff⟩ := completedRanges_all_ok fetch (scanRanges step c h) hok
  have hreq : requested (scanLoop step fetch c h).trace = scanRanges step c h := by
    rw [scanLoop_spec]
    show requested (interleave _ ++ failTail fetch _) = _
    rw [requested_append, requested_interleave, hcr]
    rw [failTail, hff]
    simp [requested]
  refine ⟨hreq, ?_, ?_, ?_, ?_⟩
  · rw [hreq, scanRanges_eq_cons hch]
    rfl
  · rw [hreq]
    exact scanRanges_chain step c h
  · rw [hreq]
    obtain ⟨p, hp1, _, hp3⟩ := @scanRanges_getLast step _ _ hch
    rw [hp1]
    simp [hp3]
  · rw [hreq]
    intro p hp
    have := scanRanges_mem hp
    exact ⟨this.2.1, this.2.2.2⟩

/-- Witness for C2 (amended) at cursor 5, head 28, STEP 10. -/
theorem C2_witness :
    (5 : Nat) < 28 ∧
    (∀ p ∈ scanRanges 10 5 28, (fetchNone p.1 p.2).isOk = true) ∧
    (requested (scanLoop 10 fetchNone 5 28).trace = scanRanges 10 5 28 ∧
     Option.map Prod.fst (requested (scanLoop 10 fetchNone 5 28).trace).head? = some 5 ∧
     List.Chain' (fun p q : Nat × Nat => q.1 = p.2 + 1)
       (requested (scanLoop 10 fetchNone 5 28).trace) ∧
     Option.map Prod.snd (requested (scanLoop 10 fetchNone 5 28).trace).getLast? =
       some (if (28 - 5) % (10 + 1) = 0 then 28 - 1 else 28) ∧
     (∀ p ∈ requested (scanLoop 10 fetchNone 5 28).trace, p.1 ≤ p.2 ∧ p.2 - p.1 ≤ 10)) :=
  ⟨by decide, by decide, C2_range_tiling 10 fetchNone 5 28 (by decide) (by decide)⟩

/-- First event of the end-to-end example (range [1000, 1100]). -/
def evC4a : Event :=
  [("address", JVal.jstr "0xeb9580c3946bb47d73aae1d4f7a94148b554b2f4"),
   ("blockNumber", JVal.jnum 1001), ("logIndex", JVal.jnum 0)]

/-- Second event of the end-to-end example. -/
def evC4b : Event :=
  [("address", JVal.jstr "0x97Bdd1fD1CAF756e00eFD42eBa9406821465B365"),
   ("blockNumber", JVal.jnum 1050), ("logIndex", JVal.jnum 1)]

/-- Third event of the end-to-end example. -/
def evC4c : Event :=
  [("address", JVal.jstr "0x20c0DD8B6559912acfAC2ce061B8d5b19Db8CA84"),
   ("blockNumber", JVal.jnum 1099), ("logIndex", JVal.jnum 2)]

/-- Oracle of the end-to-end example: three events in the first range, none
elsewhere. -/
def fetchC4 : Fetch := fun f _ =>
  if f = 1000 then Except.ok [evC4a, evC4b, evC4c] else Except.ok []

/-- C4: end-to-end example with cursor 1000, head 1205, STEP 100 and three
events in the first range: the run requests exactly the ranges [1000,1100],
[1101,1201], [1202,1205]; the cursor file ends containing 1206; exactly one
certificate is written; its attestation range field is "1000-1205"; its
payload is exactly the three events; and its fingerprint is the hash of the
canonical serialization of exactly those three events.  The v8.3.5 run
behaves the same on its bundle. -/
theorem C4_end_to_end :
    requested (run_notary_cycle 100 fetchC4 1000 1205 "2025-01-01T00:00:00" 1700000000).trace
      = [(1000, 1100), (1101, 1201), (1202, 1205)] ∧
    (run_notary_cycle 100 fetchC4 1000 1205 "2025-01-01T00:00:00" 1700000000).cursorFile
      = 1206 ∧
    (run_notary_cycle 100 fetchC4 1000 1205 "2025-01-01T00:00:00" 1700000000).files.length
      = 1 ∧
    (run_notary_cycle 100 fetchC4 1000 1205 "2025-01-01T00:00:00" 1700000000).files.map
      (fun pr => pr.2.attestation.range) = ["1000-1205"] ∧
    (run_notary_cycle 100 fetchC4 1000 1205 "2025-01-01T00:00:00" 1700000000).files.map
      (fun pr => pr.2.payload) = [[evC4a, evC4b, evC4c]] ∧
    (run_notary_cycle 100 fetchC4 1000 1205 "2025-01-01T00:00:00" 1700000000).files.map
      (fun pr => pr.2.attestation.fingerprint)
      = [pyUpper (hexdigest (sha256 (strBytes (dumpsSorted (toJson [evC4a, evC4b, evC4c])))))] ∧
    (run_supreme_notary 100 fetchC4 1000 1205 1700000000).cursorFile = 1206 ∧
    (run_supreme_notary 100 fetchC4 1000 1205 1700000000).files.map
      (fun pr => pr.2.attestation.range) = ["1000-1205"] ∧
    (run_supreme_notary 100 fetchC4 1000 1205 1700000000).files.map
      (fun pr => pr.2.raw_payload) = [[evC4a, evC4b, evC4c]] := by
  refine ⟨?_, ?_, ?_, ?_, ?_, ?_, ?_, ?_, ?_⟩ <;> rfl

/-- C5: cursor monotonicity and write ordering.  The start cursor followed by
the sequence of values written to the cursor file is strictly increasing, so
every written value strictly exceeds the value read at run start and every
previously written value; and the loop trace is exactly the per-range
interleaving of each getLogs request immediately followed by its cursor
write — hence the write for a completed range happens before the next
iteration's getLogs request — possibly ended by a failing request that writes
nothing. -/
theorem C5_cursor_monotone (step : Nat) (fetch : Fetch) (c h : Nat) :
    List.Pairwise (· < ·) (c :: writeValues (scanLoop step fetch c h).trace) ∧
    (scanLoop step fetch c h).trace =
      interleave (completedRanges fetch (scanRanges step c h)) ++
        failTail fetch (scanRanges step c h) ∧
    writeValues (scanLoop step fetch c h).trace =
      (completedRanges fetch (scanRanges step c h)).map (fun p => p.2 + 1) := by
  have htr : (scanLoop step fetch c h).trace =
      interleave (completedRanges fetch (scanRanges step c h)) ++
        failTail fetch (scanRanges step c h) := by
    rw [scanLoop_spec]
  have hft : writeValues (failTail fetch (scanRanges step c h)) = [] := by
    rw [failTail]
    cases firstFailure fetch (scanRanges step c h) with
    | none => rfl
    | some pe => rfl
  have hwv : writeValues (scanLoop step fetch c h).trace =
      (completedRanges fetch (scanRanges step c h)).map (fun p => p.2 + 1) := by
    rw [htr, writeValues_append, writeValues_interleave, hft, List.append_nil]
  refine ⟨?_, htr, hwv⟩
  rw [hwv]
  exact writes_pairwise step fetch c h

/-- C6: when getLogs returns zero events for every requested range, the batch
is empty at loop exit: no seal is computed, no certificate file is written,
no publish subprocess is invoked, and the run ends cleanly — the whole trace
consists of scan operations only (requests and cursor writes), with no seal,
file-write, publish or breach-report operation, in both implementations. -/
theorem C6_empty_batch_skip (step : Nat) (fetch : Fetch) (c h : Nat) (ts : String) (t : Nat)
    (hempty : ∀ p ∈ scanRanges step c h, fetch p.1 p.2 = Except.ok []) :
    (run_supreme_notary step fetch c h t).files = [] ∧
    (∀ op ∈ (run_supreme_notary step fetch c h t).trace, isScanOp op = true) ∧
    (run_notary_cycle step fetch c h ts t).files = [] ∧
    (∀ op ∈ (run_notary_cycle step fetch c h ts t).trace, isScanOp op = true) := by
  have hok : ∀ p ∈ scanRanges step c h, (fetch p.1 p.2).isOk = true := by
    intro p hp
    rw [hempty p hp]
    rfl
  obtain ⟨hcr, hff⟩ := completedRanges_all_ok fetch (scanRanges step c h) hok
  have hspec := scanLoop_spec step fetch h c
  have herr : (scanLoop step fetch c h).err = none := by
    rw [hspec]
    show Option.map (fun pe => pe.2) (firstFailure fetch (scanRanges step c h)) = none
    rw [hff]
    rfl
  have hv : (scanLoop step fetch c h).vault = [] := by
    rw [hspec]
    exact vaultOf_empty fetch (scanRanges step c h) hempty
  have htrace : (scanLoop step fetch c h).trace = interleave (scanRanges step c h) := by
    rw [hspec]
    show interleave (completedRanges fetch (scanRanges step c h)) ++
      failTail fetch (scanRanges step c h) = _
    rw [hcr, failTail, hff, List.append_nil]
  have hrun835 : run_supreme_notary step fetch c h t =
      ⟨(scanLoop step fetch c h).trace, [], (scanLoop step fetch c h).finalPtr⟩ := by
    simp only [run_supreme_notary]
    rw [herr, hv]
    rfl
  have hrun840 : run_notary_cycle step fetch c h ts t =
      ⟨(scanLoop step fetch c h).trace, [], (scanLoop step fetch c h).finalPtr⟩ := by
    simp only [run_notary_cycle]
    rw [herr, hv]
    rfl
  refine ⟨?_, ?_, ?_, ?_⟩
  · rw [hrun835]
  · rw [hrun835]
    show ∀ op ∈ (scanLoop step fetch c h).trace, isScanOp op = true
    rw [htrace]
    exact interleave_scanOps _
  · rw [hrun840]
  · rw [hrun840]
    show ∀ op ∈ (scanLoop step fetch c h).trace, isScanOp op = true
    rw [htrace]
    exact interleave_scanOps _

/-- Witness for C6: an all-empty oracle over a 150-block window. -/
theorem C6_witness :
    (∀ p ∈ scanRanges 70 52084000 52084150, fetchNone p.1 p.2 = Except.ok []) ∧
    ((run_supreme_notary 70 fetchNone 52084000 52084150 1700000000).files = [] ∧
     (∀ op ∈ (run_supreme_notary 70 fetchNone 52084000 52084150 1700000000).trace,
        isScanOp op = true) ∧
     (run_notary_cycle 70 fetchNone 52084000 52084150 "ts" 1700000000).files = [] ∧
     (∀ op ∈ (run_notary_cycle 70 fetchNone 52084000 52084150 "ts" 1700000000).trace,
        isScanOp op = true)) :=
  ⟨fun _ _ => rfl,
   C6_empty_batch_skip 70 fetchNone 52084000 52084150 "ts" 1700000000 (fun _ _ => rfl)⟩

/-- C7: if getLogs raises on range k (0-based; every earlier range
succeeded), the scan aborts: the run trace is the interleaving over the first
k completed ranges, then the failing request, then the integrity-breach
report.  No further ranges are requested, no certificate file is written, the
persisted cursor is the lower bound of range k — one past the upper bound of
range k-1, reflecting exactly the prior completed ranges — and the in-memory
batch is discarded while the failure is reported rather than swallowed. -/
theorem C7_rpc_failure_abort (step : Nat) (fetch : Fetch) (c h : Nat) (ts : String)
    (t k : Nat) (rk : Nat × Nat) (e : String)
    (hdone : ∀ p ∈ (scanRanges step c h).take k, (fetch p.1 p.2).isOk = true)
    (hk : (scanRanges step c h)[k]? = some rk)
    (hfail : fetch rk.1 rk.2 = Except.error e) :
    (run_notary_cycle step fetch c h ts t).trace =
      interleave ((scanRanges step c h).take k) ++
        [Op.getLogs rk.1 rk.2,
         Op.reportBreach ("[ERROR] System Integrity Breach: " ++ e)] ∧
    requested (run_notary_cycle step fetch c h ts t).trace =
      (scanRanges step c h).take (k + 1) ∧
    (run_notary_cycle step fetch c h ts t).files = [] ∧
    (run_notary_cycle step fetch c h ts t).cursorFile = rk.1 := by
  obtain ⟨hcr, hff⟩ :=
    completedRanges_fail_at fetch e k (scanRanges step c h) rk hdone hk hfail
  have hspec := scanLoop_spec step fetch h c
  have herr : (scanLoop step fetch c h).err = some e := by
    rw [hspec]
    show Option.map (fun pe => pe.2) (firstFailure fetch (scanRanges step c h)) = some e
    rw [hff]
    rfl
  have hrun : run_notary_cycle step fetch c h ts t =
      ⟨(scanLoop step fetch c h).trace ++
         [Op.reportBreach ("[ERROR] System Integrity Breach: " ++ e)], [],
       (scanLoop step fetch c h).finalPtr⟩ := by
    simp only [run_notary_cycle]
    rw [herr]
  have htrace : (scanLoop step fetch c h).trace =
      interleave ((scanRanges step c h).take k) ++ [Op.getLogs rk.1 rk.2] := by
    rw [hspec]
    show interleave (completedRanges fetch (scanRanges step c h)) ++
      failTail fetch (scanRanges step c h) = _
    rw [hcr, failTail, hff]
  have hptr : (scanLoop step fetch c h).finalPtr = rk.1 := by
    rw [hspec]
    show endPtr c (completedRanges fetch (scanRanges step c h)) = rk.1
    rw [hcr]
    exact endPtr_take_eq_fst k c rk hk
  refine ⟨?_, ?_, ?_, ?_⟩
  · rw [hrun]
    show (scanLoop step fetch c h).trace ++ _ = _
    rw [htrace, List.append_assoc]
    rfl
  · rw [hrun]
    show requested ((scanLoop step fetch c h).trace ++ _) = _
    rw [requested_append, htrace, requested_append, requested_interleave,
      List.take_succ, hk]
    simp [requested]
  · rw [hrun]
  · rw [hrun]
    exact hptr

/-- Oracle for the C7 witness: fails on the range starting at block 11. -/
def fetchFail : Fetch := fun f _ =>
  if f = 11 then Except.error "boom" else Except.ok [evW]

/-- Witness for C7: the second of three ranges fails. -/
theorem C7_witness :
    (∀ p ∈ (scanRanges 10 0 25).take 1, (fetchFail p.1 p.2).isOk = true) ∧
    (scanRanges 10 0 25)[1]? = some (11, 21) ∧
    fetchFail 11 21 = Except.error "boom" ∧
    ((run_notary_cycle 10 fetchFail 0 25 "ts" 7).trace =
       interleave ((scanRanges 10 0 25).take 1) ++
         [Op.getLogs 11 21,
          Op.reportBreach ("[ERROR] System Integrity Breach: " ++ "boom")] ∧
     requested (run_notary_cycle 10 fetchFail 0 25 "ts" 7).trace =
       (scanRanges 10 0 25).take (1 + 1) ∧
     (run_notary_cycle 10 fetchFail 0 25 "ts" 7).files = [] ∧
     (run_notary_cycle 10 fetchFail 0 25 "ts" 7).cursorFile = 11) :=
  ⟨by decide, by decide, rfl,
   C7_rpc_failure_abort 10 fetchFail 0 25 "ts" 7 1 (11, 21) "boom"
     (by decide) (by decide) rfl⟩

/-- Exhaustion of the endpoint list: every endpoint is probed once, in
order, and the connect operation terminates fatally. -/
theorem gsp_all_fail (probe : String → Bool) :
    ∀ nodes : List String, (∀ v ∈ nodes, probe v = false) →
      (get_supreme_provider probe nodes).1 = nodes ∧
      (get_supreme_provider probe nodes).2 =
        Except.error "\n[!] CRITICAL: All gateway nodes are unreachable for AOXC DAO." := by
  intro nodes
  induction nodes with
  | nil => intro _; exact ⟨rfl, rfl⟩
  | cons v rest ih =>
    intro hall
    have hv : probe v = false := hall v (List.mem_cons_self v rest)
    obtain ⟨h1, h2⟩ := ih (fun w hw => hall w (List.mem_cons_of_mem _ hw))
    constructor
    · simp only [get_supreme_provider, hv, Bool.false_eq_true, if_false]
      rw [h1]
    · simp only [get_supreme_provider, hv, Bool.false_eq_true, if_false]
      exact h2

/-- First live endpoint: the connector probes the failing prefix once each,
then returns the connection to the first endpoint that passes. -/
theorem gsp_first_success (probe : String → Bool) (u : String) (hu : probe u = true) :
    ∀ (pre suf : List String), (∀ v ∈ pre, probe v = false) →
      (get_supreme_provider probe (pre ++ u :: suf)).1 = pre ++ [u] ∧
      (get_supreme_provider probe (pre ++ u :: suf)).2 = Except.ok u := by
  intro pre
  induction pre with
  | nil =>
    intro suf _
    constructor
    · simp [get_supreme_provider, hu]
    · simp [get_supreme_provider, hu]
  | cons v rest ih =>
    intro suf hpre
    have hv : probe v = false := hpre v (List.mem_cons_self v rest)
    obtain ⟨h1, h2⟩ := ih suf (fun w hw => hpre w (List.mem_cons_of_mem _ hw))
    constructor
    · simp only [List.cons_append, get_supreme_provider, hv, Bool.false_eq_true, if_false]
      exact congrArg (v :: ·) h1
    · simp only [List.cons_append, get_supreme_provider, hv, Bool.false_eq_true, if_false]
      exact h2

/-- C9: given N endpoints that all fail the liveness probe, the connect
operation attempts each endpoint exactly once, in list order, with no
retries, and terminates fatally; given a list splitting as pre ++ u :: suf
whose first passing endpoint is u, it returns the connection to u after
exactly pre.length + 1 attempts, in list order. -/
theorem C9_connector_fallback (probe : String → Bool) (nodes pre suf : List String)
    (u : String) :
    ((∀ v ∈ nodes, probe v = false) →
      (get_supreme_provider probe nodes).1 = nodes ∧
      (get_supreme_provider probe nodes).2 =
        Except.error "\n[!] CRITICAL: All gateway nodes are unreachable for AOXC DAO.") ∧
    (nodes = pre ++ u :: suf → (∀ v ∈ pre, probe v = false) → probe u = true →
      (get_supreme_provider probe nodes).1 = pre ++ [u] ∧
      (get_supreme_provider probe nodes).1.length = pre.length + 1 ∧
      (get_supreme_provider probe nodes).2 = Except.ok u) := by
  constructor
  · exact gsp_all_fail probe nodes
  · intro hsplit hpre hu
    obtain ⟨h1, h2⟩ := gsp_first_success probe u hu pre suf hpre
    refine ⟨?_, ?_, ?_⟩
    · rw [hsplit]
      exact h1
    · rw [hsplit, h1]
      simp
    · rw [hsplit]
      exact h2

/-- Probe under which every endpoint is dead. -/
def probeDead : String → Bool := fun _ => false

/-- Probe under which only the second configured endpoint is live. -/
def probeSecond : String → Bool := fun u => u == "https://rpc.xlayer.okx.com"

/-- The configured RPC endpoint list of both sources. -/
def RPC_NODES : List String := ["https://xlayer.drpc.org", "https://rpc.xlayer.okx.com"]

/-- Witness for C9: both scenarios at the configured two-endpoint list. -/
theorem C9_witness :
    ((∀ v ∈ RPC_NODES, probeDead v = false) ∧
     (get_supreme_provider probeDead RPC_NODES).1 = RPC_NODES ∧
     (get_supreme_provider probeDead RPC_NODES).2 =
       Except.error "\n[!] CRITICAL: All gateway nodes are unreachable for AOXC DAO.") ∧
    (RPC_NODES = ["https://xlayer.drpc.org"] ++ "https://rpc.xlayer.okx.com" :: [] ∧
     (∀ v ∈ ["https://xlayer.drpc.org"], probeSecond v = false) ∧
     probeSecond "https://rpc.xlayer.okx.com" = true ∧
     (get_supreme_provider probeSecond RPC_NODES).1 =
       ["https://xlayer.drpc.org"] ++ ["https://rpc.xlayer.okx.com"] ∧
     (get_supreme_provider probeSecond RPC_NODES).1.length =
       (["https://xlayer.drpc.org"] : List String).length + 1 ∧
     (get_supreme_provider probeSecond RPC_NODES).2 =
       Except.ok "https://rpc.xlayer.okx.com") :=
  ⟨⟨fun _ _ => rfl,
    (C9_connector_fallback probeDead RPC_NODES [] [] "").1 (fun _ _ => rfl)⟩,
   ⟨rfl, by decide, by decide,
    (C9_connector_fallback probeSecond RPC_NODES ["https://xlayer.drpc.org"] []
      "https://rpc.xlayer.okx.com").2 rfl (by decide) (by decide)⟩⟩

/-- Every range a scan requests is one of its computed block ranges. -/
theorem requested_subset (step : Nat) (fetch : Fetch) (c h : Nat) :
    ∀ q ∈ requested (scanLoop step fetch c h).trace, q ∈ scanRanges step c h := by
  intro q hq
  rw [scanLoop_spec] at hq
  revert hq
  show q ∈ requested (interleave (completedRanges fetch (scanRanges step c h)) ++
    failTail fetch (scanRanges step c h)) → _
  rw [requested_append, requested_interleave]
  intro hq
  rcases List.mem_append.mp hq with hq | hq
  · exact completedRanges_mem fetch _ q hq
  · rw [failTail] at hq
    cases hffc : firstFailure fetch (scanRanges step c h) with
    | none =>
      rw [hffc] at hq
      simp [requested] at hq
    | some pe =>
      rw [hffc] at hq
      simp only [requested, List.mem_singleton] at hq
      subst hq
      exact firstFailure_mem fetch _ pe hffc

/-- C1: over a fully successful run with at least one range and a nonempty
vault, the run's trace is the full per-range scan trace followed by the seal
and the certificate write; the last scan operation — after which the crash
window of the claim opens — is the cursor write of the final pointer; at that
state the persisted cursor strictly exceeds every previously sealed upper
bound (any bound at most the resume cursor); every range fetched by this run
ends strictly below the persisted cursor; and a run resumed from the
persisted cursor, with any oracle and any new head, only requests ranges
starting at or above it — so the fetched-but-unsealed events of the crashed
run are never re-requested and are permanently lost. -/
theorem C1_eager_cursor_crash_window (step : Nat) (fetch : Fetch)
    (c h prevSealedUB : Nat) (ts : String) (t : Nat)
    (hch : c < h)
    (hok : ∀ p ∈ scanRanges step c h, (fetch p.1 p.2).isOk = true)
    (hv : (scanLoop step fetch c h).vault.isEmpty = false)
    (hprev : prevSealedUB ≤ c) :
    (∃ nm, (run_notary_cycle step fetch c h ts t).trace =
       interleave (scanRanges step c h) ++ [Op.sealOp c h, Op.writeFile nm]) ∧
    (interleave (scanRanges step c h)).getLast? =
      some (Op.writeCursor (endPtr c (scanRanges step c h))) ∧
    prevSealedUB < endPtr c (scanRanges step c h) ∧
    (∀ p ∈ scanRanges step c h, p.2 < endPtr c (scanRanges step c h)) ∧
    (∀ (fetch2 : Fetch) (h2 : Nat),
       ∀ q ∈ requested (scanLoop step fetch2 (endPtr c (scanRanges step c h)) h2).trace,
         endPtr c (scanRanges step c h) ≤ q.1) := by
  obtain ⟨hcr, hff⟩ := completedRanges_all_ok fetch (scanRanges step c h) hok
  have hspec := scanLoop_spec step fetch h c
  have herr : (scanLoop step fetch c h).err = none := by
    rw [hspec]
    show Option.map (fun pe => pe.2) (firstFailure fetch (scanRanges step c h)) = none
    rw [hff]
    rfl
  have htrace : (scanLoop step fetch c h).trace = interleave (scanRanges step c h) := by
    rw [hspec]
    show interleave (completedRanges fetch (scanRanges step c h)) ++
      failTail fetch (scanRanges step c h) = _
    rw [hcr, failTail, hff, List.append_nil]
  refine ⟨?_, ?_, ?_, ?_, ?_⟩
  · refine ⟨"AOXC_CERT_" ++ toString t ++ "_" ++
      String.mk (((seal_artifact (scanLoop step fetch c h).vault c h ts).2).data.take 8)
      ++ ".json", ?_⟩
    simp only [run_notary_cycle]
    rw [herr]
    simp only [hv, Bool.false_eq_true, if_false]
    show (scanLoop step fetch c h).trace ++ _ = _
    rw [htrace]
  · obtain ⟨p, hp1, hp2, _⟩ := @scanRanges_getLast step _ _ hch
    rw [hp2]
    exact interleave_getLast _ p hp1
  · have := @endPtr_gt_of_lt step _ _ hch
    omega
  · intro p hp
    exact scanRanges_snd_lt_endPtr hp
  · intro fetch2 h2 q hq
    have hmem := requested_subset step fetch2 (endPtr c (scanRanges step c h)) h2 q hq
    exact (scanRanges_mem hmem).1

/-- Oracle for the C1 witness: one event per range. -/
def fetchC1 : Fetch := fun _ _ => Except.ok [evW]

/-- Witness for C1: cursor 0, head 15, STEP 10, a previous sealed upper bound
of 0; the crash window and the data loss are exhibited concretely. -/
theorem C1_witness :
    (0 : Nat) < 15 ∧
    (∀ p ∈ scanRanges 10 0 15, (fetchC1 p.1 p.2).isOk = true) ∧
    (scanLoop 10 fetchC1 0 15).vault.isEmpty = false ∧
    (0 : Nat) ≤ 0 ∧
    ((∃ nm, (run_notary_cycle 10 fetchC1 0 15 "t0" 7).trace =
        interleave (scanRanges 10 0 15) ++ [Op.sealOp 0 15, Op.writeFile nm]) ∧
     (interleave (scanRanges 10 0 15)).getLast? =
       some (Op.writeCursor (endPtr 0 (scanRanges 10 0 15))) ∧
     0 < endPtr 0 (scanRanges 10 0 15) ∧
     (∀ p ∈ scanRanges 10 0 15, p.2 < endPtr 0 (scanRanges 10 0 15)) ∧
     (∀ (fetch2 : Fetch) (h2 : Nat),
        ∀ q ∈ requested (scanLoop 10 fetch2 (endPtr 0 (scanRanges 10 0 15)) h2).trace,
          endPtr 0 (scanRanges 10 0 15) ≤ q.1)) :=
  ⟨by decide, by decide, by decide, by decide,
   C1_eager_cursor_crash_window 10 fetchC1 0 15 0 "t0" 7
     (by decide) (by decide) (by decide) (by decide)⟩

/-- Oracle for the C8 counterexample and witness: one event in the first
range, none elsewhere. -/
def fetchC8 : Fetch := fun f _ => if f = 50 then Except.ok [evW] else Except.ok []

/-- C8 counterexample: the v8.3.5 run (sentinel.py) writes its certificate to
`Supreme_Sealed_1700000000.json`, a name derived from the creation time only.
Against the certificate's own fingerprint, the name does not match the claimed
pattern `<prefix>_<unixtime>_<fingerprint-prefix-or-full>.json`: no
decomposition of the name contains a fingerprint component. -/
theorem C8_counterexample :
    (run_supreme_notary 85 fetchC8 50 60 1700000000).files.map Prod.fst
      = ["Supreme_Sealed_1700000000.json"] ∧
    (run_supreme_notary 85 fetchC8 50 60 1700000000).files.map
      (fun pr => pr.2.attestation.fingerprint_sha256) = [sentinel_fingerprint [evW]] ∧
    matchesCertPattern "Supreme_Sealed_1700000000.json" 1700000000
      (sentinel_fingerprint [evW]) = false := by
  refine ⟨rfl, rfl, ?_⟩
  decide

/-- C8 (amended): over a fully successful run with a nonempty vault, the
v8.4.0 implementation (infra40_SentinelGuard.py) writes exactly one
certificate file, named `AOXC_CERT_<unixtime>_<first 8 fingerprint
chars>.json`, which matches the claimed pattern
`<prefix>_<unixtime>_<fingerprint-prefix-or-full>.json` against the
certificate's fingerprint; the v8.3.5 implementation (sentinel.py) instead
writes `Supreme_Sealed_<unixtime>.json`, derived from the creation time
only, with no fingerprint component. -/
theorem C8_filename_pattern (step : Nat) (fetch : Fetch) (c h : Nat) (ts : String) (t : Nat)
    (hok : ∀ p ∈ scanRanges step c h, (fetch p.1 p.2).isOk = true)
    (hv : (scanLoop step fetch c h).vault.isEmpty = false) :
    (run_notary_cycle step fetch c h ts t).files.map Prod.fst =
      ["AOXC_CERT_" ++ toString t ++ "_" ++
        String.mk (((seal_artifact (scanLoop step fetch c h).vault c h ts).2).data.take 8)
        ++ ".json"] ∧
    (∀ pr ∈ (run_notary_cycle step fetch c h ts t).files,
        matchesCertPattern pr.1 t pr.2.attestation.fingerprint = true) ∧
    (run_supreme_notary step fetch c h t).files.map Prod.fst =
      ["Supreme_Sealed_" ++ toString t ++ ".json"] := by
  obtain ⟨hcr, hff⟩ := completedRanges_all_ok fetch (scanRanges step c h) hok
  have hspec := scanLoop_spec step fetch h c
  have herr : (scanLoop step fetch c h).err = none := by
    rw [hspec]
    show Option.map (fun pe => pe.2) (firstFailure fetch (scanRanges step c h)) = none
    rw [hff]
    rfl
  have hrun840 : (run_notary_cycle step fetch c h ts t).files =
      [("AOXC_CERT_" ++ toString t ++ "_" ++
          String.mk (((seal_artifact (scanLoop step fetch c h).vault c h ts).2).data.take 8)
          ++ ".json",
        (seal_artifact (scanLoop step fetch c h).vault c h ts).1)] := by
    simp only [run_notary_cycle]
    rw [herr]
    simp only [hv, Bool.false_eq_true, if_false]
  have hrun835 : (run_supreme_notary step fetch c h t).files =
      [("Supreme_Sealed_" ++ toString t ++ ".json",
        ⟨⟨sentinel_fingerprint (scanLoop step fetch c h).vault,
          "AOXC-V2-AKDENIZ-SUPREME-NOTARY", "https://x.com/AOXC_AKDENIZ",
          toString c ++ "-" ++ toString h, t,
          "In Code We Trust - AOXC Akdeniz"⟩, (scanLoop step fetch c h).vault⟩)] := by
    simp only [run_supreme_notary]
    rw [herr]
    simp only [hv, Bool.false_eq_true, if_false]
  refine ⟨?_, ?_, ?_⟩
  · rw [hrun840]
    rfl
  · intro pr hpr
    rw [hrun840] at hpr
    simp only [List.mem_singleton] at hpr
    subst hpr
    have hlen : ((seal_artifact (scanLoop step fetch c h).vault c h ts).2).data.length = 64 :=
      atomicHash_data_length _
    exact matchesCertPattern_infra40 t _ hlen
  · rw [hrun835]
    rfl

/-- Witness for C8 (amended) at cursor 50, head 60, STEP 85. -/
theorem C8_witness :
    (∀ p ∈ scanRanges 85 50 60, (fetchC8 p.1 p.2).isOk = true) ∧
    (scanLoop 85 fetchC8 50 60).vault.isEmpty = false ∧
    ((run_notary_cycle 85 fetchC8 50 60 "t0" 1700000000).files.map Prod.fst =
       ["AOXC_CERT_" ++ toString 1700000000 ++ "_" ++
         String.mk (((seal_artifact (scanLoop 85 fetchC8 50 60).vault 50 60 "t0").2).data.take 8)
         ++ ".json"] ∧
     (∀ pr ∈ (run_notary_cycle 85 fetchC8 50 60 "t0" 1700000000).files,
         matchesCertPattern pr.1 1700000000 pr.2.attestation.fingerprint = true) ∧
     (run_supreme_notary 85 fetchC8 50 60 1700000000).files.map Prod.fst =
       ["Supreme_Sealed_" ++ toString 1700000000 ++ ".json"]) :=
  ⟨by decide, by decide,
   C8_filename_pattern 85 fetchC8 50 60 "t0" 1700000000 (by decide) (by decide)⟩
